import Mathlib

/-!
Verification development for the scad-viewer repository.

The parameter Extractor (`parseParameters`) and Synthesizer
(`buildModifiedSource`) from `app.js`, and the dependency cache
(`loadBOSL2`), outcome classification (`compile`) and message handler from
`worker.js`, are shallowly embedded over `List Char`.  The JavaScript
regular expressions used by the source are embedded as explicit
deterministic matching functions whose backtracking order mirrors the
JS engine (greedy and lazy quantifier semantics are hand-unfolded, which
is recorded next to each definition).  JS numbers are modelled exactly as
rationals (the claims never exercise double rounding), with the JS
`NaN` / `Infinity` values as explicit constructors.
-/

namespace ScadViewer

abbrev Str := List Char

/-- The character class of the JS `\s` escape and of `String.prototype.trim`
(code points compared numerically). -/
def jsSpace (c : Char) : Bool :=
  c.toNat = 32 || c.toNat = 9 || c.toNat = 10 || c.toNat = 13 ||
  c.toNat = 11 || c.toNat = 12 || c.toNat = 0xa0 || c.toNat = 0x1680 ||
  (0x2000 ≤ c.toNat && c.toNat ≤ 0x200a) || c.toNat = 0x2028 || c.toNat = 0x2029 ||
  c.toNat = 0x202f || c.toNat = 0x205f || c.toNat = 0x3000 || c.toNat = 0xfeff

/-- The character class of the JS `\d` escape. -/
def jsDigit (c : Char) : Bool :=
  48 ≤ c.toNat && c.toNat ≤ 57

/-- The character class of the JS `\w` escape. -/
def jsWord (c : Char) : Bool :=
  jsDigit c || (97 ≤ c.toNat && c.toNat ≤ 122) || (65 ≤ c.toNat && c.toNat ≤ 90) ||
  c.toNat = 95

/-- The character class of the JS `.` metacharacter without the `s` flag:
every character except the four ECMAScript line terminators (LF, CR, LS,
PS).  Note that CR is a `\s` character but not a `.` character. -/
def jsDot (c : Char) : Bool :=
  !(c.toNat = 10 || c.toNat = 13 || c.toNat = 0x2028 || c.toNat = 0x2029)

/-- `String.prototype.trim`: strip `jsSpace` characters from both ends. -/
def jsTrim (s : Str) : Str :=
  ((s.dropWhile jsSpace).reverse.dropWhile jsSpace).reverse

/-- `String.prototype.split('\n')` (as used on sources, which separates lines). -/
def splitNL : Str → List Str
  | [] => [[]]
  | c :: rest =>
    if c = '\n' then [] :: splitNL rest
    else
      match splitNL rest with
      | [] => [[c]]
      | l :: ls => (c :: l) :: ls

/-- `Array.prototype.join('\n')`. -/
def joinNL : List Str → Str
  | [] => []
  | [l] => l
  | l :: ls => l ++ '\n' :: joinNL ls

/-- JS array read `a[i]` (in-range reads only; `none` models `undefined`). -/
def getAt : List α → Nat → Option α
  | [], _ => none
  | a :: _, 0 => some a
  | _ :: l, n + 1 => getAt l n

/-- JS array write `a[i] = x` for an in-range index (out of range is unused). -/
def setAt : List α → Nat → α → List α
  | [], _, _ => []
  | _ :: l, 0, b => b :: l
  | a :: l, n + 1, b => a :: setAt l n b

/-- Decimal digits of a natural number, most significant first (fuel-driven). -/
def natDigitsAux : Nat → Nat → Str
  | 0, _ => []
  | _ + 1, 0 => []
  | fuel + 1, n => natDigitsAux fuel (n / 10) ++ [Char.ofNat (48 + n % 10)]

/-- Decimal notation of a natural number, as JS renders integers. -/
def natToChars (n : Nat) : Str :=
  if n = 0 then ['0'] else natDigitsAux (n + 1) n

/-- Numeric value of a list of decimal digit characters. -/
def digitsToNat (s : Str) : Nat :=
  s.foldl (fun acc c => 10 * acc + (c.toNat - 48)) 0

/-- Euclid's algorithm with explicit fuel (the first argument strictly
decreases, so fuel `a + 1` is always enough for `gcdFuel (a+1) a b`). -/
def gcdFuel : Nat → Nat → Nat → Nat
  | 0, _, b => b
  | fuel + 1, a, b => if a = 0 then b else gcdFuel fuel (b % a) a

def natGcd (a b : Nat) : Nat := gcdFuel (a + 1) a b

/-- An exact rational `num / den`, kept in lowest terms by `normQ`.
Used instead of Mathlib's `ℚ` so that every operation reduces inside the
kernel (`decide`). -/
structure ExactQ where
  num : Int
  den : Nat
deriving DecidableEq

/-- Normalize `n / d` to lowest terms (`d ≠ 0` for every produced value). -/
def normQ (n : Int) (d : Nat) : ExactQ :=
  let g := natGcd n.natAbs d
  if g = 0 then ⟨n, d⟩ else ⟨n / (g : Int), d / g⟩

def qNeg (q : ExactQ) : ExactQ := ⟨-q.num, q.den⟩

/-- A JS number as stored by the extractor: modelled exactly, with the
special values `NaN` and the infinities explicit. -/
inductive JSNum where
  | nan : JSNum
  | posInf : JSNum
  | negInf : JSNum
  | fin : ExactQ → JSNum
deriving DecidableEq

/-- JS `parseFloat`: skip leading whitespace, optional sign, then either
`Infinity` or the longest decimal-literal prefix (`digits [. digits] [exp]`,
with `.5` and `5.` both valid); `NaN` when no prefix parses.  The numeric
value is kept exact (no double rounding). -/
def parseFloatJS (s : Str) : JSNum :=
  let s1 := s.dropWhile jsSpace
  let signAndRest : Bool × Str :=
    match s1 with
    | '-' :: r => (true, r)
    | '+' :: r => (false, r)
    | _ => (false, s1)
  let neg := signAndRest.1
  let s2 := signAndRest.2
  if s2.take 8 = "Infinity".data then
    if neg then JSNum.negInf else JSNum.posInf
  else
    let intD := s2.takeWhile jsDigit
    let s3 := s2.dropWhile jsDigit
    let fracAndRest : Str × Str :=
      match s3 with
      | '.' :: r => (r.takeWhile jsDigit, r.dropWhile jsDigit)
      | _ => ([], s3)
    let fracD := fracAndRest.1
    let s4 := fracAndRest.2
    if intD = [] ∧ fracD = [] then JSNum.nan
    else
      let expVal : Int :=
        match s4 with
        | 'e' :: r | 'E' :: r =>
          let esign : Bool × Str :=
            match r with
            | '-' :: r2 => (true, r2)
            | '+' :: r2 => (false, r2)
            | _ => (false, r)
          let eD := esign.2.takeWhile jsDigit
          if eD = [] then 0
          else if esign.1 then -(digitsToNat eD : Int) else (digitsToNat eD : Int)
        | _ => 0
      let mantNum : Int := digitsToNat intD * 10 ^ fracD.length + digitsToNat fracD
      let mantDen : Nat := 10 ^ fracD.length
      let q : ExactQ :=
        if 0 ≤ expVal then normQ (mantNum * 10 ^ expVal.toNat) mantDen
        else normQ mantNum (mantDen * 10 ^ (-expVal).toNat)
      JSNum.fin (if neg then qNeg q else q)

/-- Multiplicity of the prime factor `p` in `n` (fuel-driven). -/
def factorMultAux (p : Nat) : Nat → Nat → Nat
  | 0, _ => 0
  | fuel + 1, n => if n % p = 0 && n ≠ 0 && p ≥ 2 then 1 + factorMultAux p fuel (n / p) else 0

def factorMult (p n : Nat) : Nat := factorMultAux p n n

/-- ECMA `Number::toString` in base 10 for an exact positive decimal
fraction, given as the integer `s` of its significant digits and the
exponent position `n` (the value is `s * 10 ^ (n - k)` with `k` the digit
count of `s`, and `s` not divisible by 10). -/
def posDecToChars (s : Nat) (n : Int) : Str :=
  let ds := natToChars s
  let k : Int := ds.length
  if k ≤ n ∧ n ≤ 21 then
    ds ++ List.replicate (n - k).toNat '0'
  else if 0 < n ∧ n ≤ 21 then
    ds.take n.toNat ++ '.' :: ds.drop n.toNat
  else if -6 < n ∧ n ≤ 0 then
    '0' :: '.' :: List.replicate (-n).toNat '0' ++ ds
  else
    let expPart := (if n - 1 < 0 then ['-'] else ['+']) ++ natToChars (n - 1).natAbs
    if ds.length = 1 then ds ++ 'e' :: expPart
    else ds.take 1 ++ '.' :: ds.drop 1 ++ 'e' :: expPart

/-- JS `String(x)` for a number.  For finite values the exact rational is a
decimal fraction whenever it was produced by `parseFloatJS`; the final
branch is unreachable for such values and kept only for totality. -/
def jsNumToString : JSNum → Str
  | JSNum.nan => "NaN".data
  | JSNum.posInf => "Infinity".data
  | JSNum.negInf => "-Infinity".data
  | JSNum.fin q =>
    if q.num = 0 then ['0']
    else
      let sgn : Str := if q.num < 0 then ['-'] else []
      let num := q.num.natAbs
      let den := q.den
      let a := factorMult 2 den
      let b := factorMult 5 den
      if den = 2 ^ a * 5 ^ b then
        let d := max a b
        let bigN := num * 10 ^ d / den
        let t := factorMult 10 bigN
        let s := bigN / 10 ^ t
        let k := (natToChars s).length
        sgn ++ posDecToChars s (k + t - d)
      else
        sgn ++ natToChars num ++ '/' :: natToChars den

/-! ## The regex matchers of `app.js`, embedded as explicit functions

Each JS regular expression used by `parseParameters` and
`buildModifiedSource` is anchored and deterministic up to the lazy
quantifier `.+?` and the greedy `\s*` immediately before it; those two are
embedded by `lazySearch` (try the shortest `.+?`, growing it one character
at a time) and `spaceBacktrack` (first try the greedy maximum of `\s*`,
then give characters back one at a time), which is exactly the JS engine's
backtracking order. -/

/-- The lazy quantifier `.+?` followed by the tail pattern decided by
`t`: take at least one character, testing the tail after each character,
and stop at the first success.  A character outside the `.` class (a line
terminator) cannot be consumed, so the search fails as soon as one is
reached.  Returns the text matched by `.+?` (prefixed by `acc`) together
with the tail's result. -/
def lazySearch (t : Str → Option α) : Str → Str → Option (Str × α)
  | _, [] => none
  | acc, c :: rest =>
    if jsDot c then
      match t rest with
      | some a => some (acc ++ [c], a)
      | none => lazySearch t (acc ++ [c]) rest
    else none

/-- A greedy `\s*` in front of a lazy `.+?`: `wsRev` holds (reversed) the
whitespace the greedy `\s*` consumed; on failure of the rest of the
pattern one space is given back at a time.  Returns the whitespace the
`\s*` finally kept, the `.+?` text, and the tail's result. -/
def spaceBacktrack (t : Str → Option α) : Str → Str → Option (Str × Str × α)
  | [], start =>
    match lazySearch t [] start with
    | some (v, a) => some ([], v, a)
    | none => none
  | s :: ws', start =>
    match lazySearch t [] start with
    | some (v, a) => some ((s :: ws').reverse, v, a)
    | none => spaceBacktrack t ws' (s :: start)

/-- Tail of the assignment regex `/^(\w+)\s*=\s*(.+?)\s*;\s*(?:\/\/\s*(.*))?$/`
after the value: `\s*;\s*(?:\/\/\s*(.*))?$`.  Yields `none` when there is
no comment, `some text` for a `//` comment (the greedy `\s*` after `//`
already stripped, as the regex does before the `(.*)` capture); the
comment capture is a `.` run, so a line terminator inside it makes the
whole tail pattern fail (`$` requires the true end of the string). -/
def tryTailVar (r : Str) : Option (Option Str) :=
  match r.dropWhile jsSpace with
  | ';' :: r2 =>
    let r3 := r2.dropWhile jsSpace
    match r3 with
    | [] => some none
    | '/' :: '/' :: r4 =>
      if (r4.dropWhile jsSpace).all jsDot then some (some (r4.dropWhile jsSpace)) else none
    | _ => none
  | _ => none

/-- Result of the assignment regex of `parseParameters`. -/
structure VarMatch where
  name : Str
  value : Str
  comment : Option Str
deriving DecidableEq

/-- `line.match(/^(\w+)\s*=\s*(.+?)\s*;\s*(?:\/\/\s*(.*))?$/)`, applied by
`parseParameters` to the trimmed line. -/
def varMatchFn (line : Str) : Option VarMatch :=
  if line.takeWhile jsWord = [] then none
  else
    match (line.dropWhile jsWord).dropWhile jsSpace with
    | '=' :: r3 =>
      match spaceBacktrack tryTailVar (r3.takeWhile jsSpace).reverse (r3.dropWhile jsSpace) with
      | some (_, v, com) => some ⟨line.takeWhile jsWord, v, com⟩
      | none => none
    | _ => none

/-- Tail of the synthesizer regex `/^(\s*\w+\s*=\s*).+?(\s*;.*)$/` after the
value: `(\s*;.*)$`, capturing the whole suffix from the whitespace before
the first `;` on.  The `.*` run cannot cross a line terminator and `$`
requires the true end of the string, so the pattern fails when a line
terminator follows the `;`. -/
def tryTailSynth (r : Str) : Option Str :=
  match r.dropWhile jsSpace with
  | ';' :: r2 => if r2.all jsDot then some (r.takeWhile jsSpace ++ ';' :: r2) else none
  | _ => none

/-- `original.match(/^(\s*\w+\s*=\s*).+?(\s*;.*)$/)` as used by
`buildModifiedSource`, returning the two captured groups and the text the
lazy `.+?` matched between them. -/
def synthMatchFn (l : Str) : Option (Str × Str × Str) :=
  if (l.dropWhile jsSpace).takeWhile jsWord = [] then none
  else
    match ((l.dropWhile jsSpace).dropWhile jsWord).dropWhile jsSpace with
    | '=' :: r3 =>
      match spaceBacktrack tryTailSynth (r3.takeWhile jsSpace).reverse (r3.dropWhile jsSpace) with
      | some (ws3, mid, suf) =>
        some (l.takeWhile jsSpace ++ (l.dropWhile jsSpace).takeWhile jsWord ++
          ((l.dropWhile jsSpace).dropWhile jsWord).takeWhile jsSpace ++ '=' :: ws3, mid, suf)
      | none => none
    | _ => none

/-- `line.match(/^\/\/\s*\[([^\]]+)\]\s*$/)`: a section header comment. -/
def sectionMatchFn (line : Str) : Option Str :=
  match line with
  | '/' :: '/' :: r =>
    match r.dropWhile jsSpace with
    | '[' :: r2 =>
      let inner := r2.takeWhile (fun c => c ≠ ']')
      match r2.dropWhile (fun c => c ≠ ']') with
      | ']' :: r3 => if inner ≠ [] ∧ r3.all jsSpace then some inner else none
      | _ => none
    | _ => none
  | _ => none

/-- `/^\s*(module|function)\s+/.test(line)`: the scan-terminating check. -/
def stopTest (line : Str) : Bool :=
  let r := line.dropWhile jsSpace
  (r.take 6 = "module".data && jsSpace ((r.drop 6).headD 'x')) ||
  (r.take 8 = "function".data && jsSpace ((r.drop 8).headD 'x'))

/-- `comment.match(/^\[([^\]]+)\]$/)`: a bracketed constraint annotation. -/
def dropdownMatchFn (c : Str) : Option Str :=
  match c with
  | '[' :: r =>
    let inner := r.takeWhile (fun ch => ch ≠ ']')
    match r.dropWhile (fun ch => ch ≠ ']') with
    | ']' :: r2 => if inner ≠ [] ∧ r2 = [] then some inner else none
    | _ => none
  | _ => none

/-- The token `-?[\d.]+` (greedy, deterministic since `:` and spaces are
outside the class): optional sign then a maximal nonempty digit-or-dot
run. -/
def matchNumTok (s : Str) : Option (Str × Str) :=
  let core : Str × Str :=
    match s with
    | '-' :: r => (['-'], r)
    | _ => ([], s)
  let run := core.2.takeWhile (fun c => jsDigit c || c = '.')
  if run = [] then none else some (core.1 ++ run, core.2.dropWhile (fun c => jsDigit c || c = '.'))

/-- `inner.match(/^(-?[\d.]+)\s*:\s*(?:(-?[\d.]+)\s*:\s*)?(-?[\d.]+)$/)`:
the range annotation.  The optional middle group is tried first (greedy
option) and abandoned as a whole when the rest of the pattern cannot
complete, matching the JS backtracking order. -/
def rangeMatchFn (s : Str) : Option (Str × Option Str × Str) :=
  match matchNumTok s with
  | none => none
  | some (t1, r1) =>
    match r1.dropWhile jsSpace with
    | ':' :: r2 =>
      let r4 := r2.dropWhile jsSpace
      let withMid : Option (Str × Option Str × Str) :=
        match matchNumTok r4 with
        | none => none
        | some (t2, q1) =>
          match q1.dropWhile jsSpace with
          | ':' :: q2 =>
            match matchNumTok (q2.dropWhile jsSpace) with
            | some (t3, []) => some (t1, some t2, t3)
            | _ => none
          | _ => none
      match withMid with
      | some res => some res
      | none =>
        match matchNumTok r4 with
        | some (t3, []) => some (t1, none, t3)
        | _ => none
    | _ => none

/-- `String.prototype.split(',')`. -/
def splitComma : Str → List Str
  | [] => [[]]
  | c :: rest =>
    if c = ',' then [] :: splitComma rest
    else
      match splitComma rest with
      | [] => [[c]]
      | l :: ls => (c :: l) :: ls

/-- `o.replace(/^"|"$/g, '')`: strip one leading and one trailing double
quote, independently, when present. -/
def stripEndQuotes (s : Str) : Str :=
  let s1 : Str :=
    match s with
    | '"' :: r => r
    | _ => s
  match s1.reverse with
  | '"' :: r => r.reverse
  | _ => s1

/-! ## The parameter Extractor (`parseParameters` of `app.js`) -/

/-- The value of the `type` field of a descriptor (a string in JS:
`'number' | 'bool' | 'string'`). -/
inductive PType where
  | number : PType
  | bool : PType
  | str : PType
deriving DecidableEq

/-- A dynamically typed JS value as stored in `value` and in `options`
entries. -/
inductive JSValue where
  | boolV : Bool → JSValue
  | strV : Str → JSValue
  | numV : JSNum → JSValue
deriving DecidableEq

/-- One parameter descriptor, as built by `parseParameters`
(`sectionLabel` embeds the JS field `section`, which is a Lean keyword). -/
structure Param where
  name : Str
  sectionLabel : Option Str
  line : Nat
  rawLine : Str
  comment : Str
  description : Str
  type : PType
  value : JSValue
  options : Option (List JSValue)
  min : Option JSNum
  max : Option JSNum
  step : Option JSNum
deriving DecidableEq

/-- The literal classification of the assignment's right-hand side
(`app.js` lines 131-146): `true`/`false`, a fully double-quoted token, a
`parseFloat`-able token, or none of those (an expression, yielding no
descriptor). -/
def parseValue (rawValue : Str) : Option (PType × JSValue) :=
  if rawValue = "true".data then some (PType.bool, JSValue.boolV true)
  else if rawValue = "false".data then some (PType.bool, JSValue.boolV false)
  else if rawValue.head? = some '"' ∧ (rawValue.drop 1).getLast? = some '"' then
    some (PType.str, JSValue.strV ((rawValue.drop 1).dropLast))
  else
    match parseFloatJS rawValue with
    | JSNum.nan => none
    | n => some (PType.number, JSValue.numV n)

/-- The constraint-comment handling (`app.js` lines 149-182): a bracketed
range sets `min`/`max`/`step`, forces numeric type and clears `options`;
any other bracketed content becomes an options list (numeric entries
re-parsed when the descriptor is numeric); a bracket-free comment is the
description. -/
def applyComment (p : Param) (comment : Str) : Param :=
  match dropdownMatchFn comment with
  | some inner =>
    match rangeMatchFn inner with
    | some (t1, t2opt, t3) =>
      { p with
        min := some (parseFloatJS t1)
        step := t2opt.map parseFloatJS
        max := some (parseFloatJS t3)
        type := PType.number
        options := none }
    | none =>
      let opts := (splitComma inner).map fun o => stripEndQuotes (jsTrim o)
      let opts2 :=
        if p.type = PType.number then
          opts.map fun o =>
            match parseFloatJS o with
            | JSNum.nan => JSValue.strV o
            | n => JSValue.numV n
        else opts.map JSValue.strV
      { p with options := some opts2 }
  | none => { p with description := comment }

/-- The freshly initialized descriptor of `parseParameters`
(`app.js` lines 115-128), before the value and comment are applied. -/
def mkBase (vm : VarMatch) (tv : PType × JSValue) (sect : Option Str) (i : Nat) (l : Str) :
    Param :=
  { name := vm.name, sectionLabel := sect, line := i, rawLine := l
    comment := jsTrim (vm.comment.getD []), description := [], type := tv.1, value := tv.2
    options := none, min := none, max := none, step := none }

/-- One pushed descriptor: the base record with the constraint comment
applied when one is present (`app.js` lines 149-184). -/
def mkParam (vm : VarMatch) (tv : PType × JSValue) (sect : Option Str) (i : Nat) (l : Str) :
    Param :=
  if jsTrim (vm.comment.getD []) ≠ [] then
    applyComment (mkBase vm tv sect i l) (jsTrim (vm.comment.getD []))
  else mkBase vm tv sect i l

/-- The line scan of `parseParameters` (`app.js` lines 88-185), with the
running line index and current section threaded explicitly. -/
def parseLoop : List Str → Nat → Option Str → List Param
  | [], _, _ => []
  | l :: rest, i, sect =>
    match sectionMatchFn (jsTrim l) with
    | some s => parseLoop rest (i + 1) (some (jsTrim s))
    | none =>
      if stopTest (jsTrim l) then []
      else
        match varMatchFn (jsTrim l) with
        | none => parseLoop rest (i + 1) sect
        | some vm =>
          if vm.name.head? = some '$' then parseLoop rest (i + 1) sect
          else
            match parseValue (jsTrim vm.value) with
            | none => parseLoop rest (i + 1) sect
            | some tv => mkParam vm tv sect i l :: parseLoop rest (i + 1) sect

/-- `parseParameters(source)` of `app.js`. -/
def parseParameters (source : Str) : List Param :=
  parseLoop (splitNL source) 0 none

/-! ## The Source Synthesizer (`buildModifiedSource` of `app.js`) -/

/-- JS truthiness, for `p.value ? 'true' : 'false'`. -/
def jsTruthy : JSValue → Bool
  | JSValue.boolV b => b
  | JSValue.strV s => s ≠ []
  | JSValue.numV JSNum.nan => false
  | JSValue.numV (JSNum.fin q) => q.num ≠ 0
  | JSValue.numV _ => true

/-- JS string conversion of a value, for template interpolation and
`String(x)`. -/
def jsValueToString : JSValue → Str
  | JSValue.boolV b => if b then "true".data else "false".data
  | JSValue.strV s => s
  | JSValue.numV n => jsNumToString n

/-- The `newValue` computation of `buildModifiedSource` (`app.js` lines
199-206): bool by truthiness, string re-wrapped in double quotes with no
escaping, number via `String(...)`. -/
def serializeValue (p : Param) : Str :=
  match p.type with
  | PType.bool => if jsTruthy p.value then "true".data else "false".data
  | PType.str => '"' :: jsValueToString p.value ++ ['"']
  | PType.number => jsValueToString p.value

/-- ECMAScript `GetSubstitution` for a replacement string against a match
with exactly two (always participating) capture groups, where the match
spans the whole input (`position` zero, empty before/after portions):
`$$` is a literal dollar, `$&` the whole match, a backtick or quote
reference yields the empty context portion, `$1`/`$01` is group one and
`$2`/`$02` group two (a two-digit reference beyond the group count falls
back to one digit, and a one-digit reference beyond it is literal); every
other `$` sequence is kept verbatim. -/
def getSubstitutionGo (matched cap1 cap2 : Str) : Nat → Str → Str
  | 0, [] => []
  | 0, c :: rest =>
    if c = '$' then getSubstitutionGo matched cap1 cap2 1 rest
    else c :: getSubstitutionGo matched cap1 cap2 0 rest
  | 1, [] => ['$']
  | 1, d :: rest =>
    if d = '$' then '$' :: getSubstitutionGo matched cap1 cap2 0 rest
    else if d = '&' then matched ++ getSubstitutionGo matched cap1 cap2 0 rest
    else if d = '`' then getSubstitutionGo matched cap1 cap2 0 rest
    else if d = '\'' then getSubstitutionGo matched cap1 cap2 0 rest
    else if d = '1' then cap1 ++ getSubstitutionGo matched cap1 cap2 0 rest
    else if d = '2' then cap2 ++ getSubstitutionGo matched cap1 cap2 0 rest
    else if d = '0' then getSubstitutionGo matched cap1 cap2 2 rest
    else '$' :: d :: getSubstitutionGo matched cap1 cap2 0 rest
  | 2, [] => ['$', '0']
  | 2, e :: rest =>
    if e = '1' then cap1 ++ getSubstitutionGo matched cap1 cap2 0 rest
    else if e = '2' then cap2 ++ getSubstitutionGo matched cap1 cap2 0 rest
    else if e = '$' then '$' :: '0' :: getSubstitutionGo matched cap1 cap2 1 rest
    else '$' :: '0' :: e :: getSubstitutionGo matched cap1 cap2 0 rest
  | _ + 3, _ => []

def getSubstitution (matched cap1 cap2 : Str) (s : Str) : Str :=
  getSubstitutionGo matched cap1 cap2 0 s

/-- `original.replace(/^(\s*\w+\s*=\s*).+?(\s*;.*)$/, `$1NEW$2`)` where
`NEW` is the serialized value spliced into the template literal before
`replace` runs: on a match the whole line is replaced by the template
`$1` ++ newVal ++ `$2` processed by `GetSubstitution` (so `$` sequences
inside the spliced value are substituted, not inserted verbatim);
otherwise the line is returned unchanged (JS `replace` with no match). -/
def synthReplaceLine (l : Str) (newVal : Str) : Str :=
  match synthMatchFn l with
  | some (pre, _, suf) => getSubstitution l pre suf ('$' :: '1' :: (newVal ++ '$' :: '2' :: []))
  | none => l

/-- The descriptor loop of `buildModifiedSource` (`app.js` lines 196-214).
Every descriptor produced by the extractor records an in-range line, so
the (unreachable in the source) out-of-range read is embedded as a
skip. -/
def buildLoop : List Str → List Param → List Str
  | ls, [] => ls
  | ls, p :: ps =>
    match getAt ls p.line with
    | some l => buildLoop (setAt ls p.line (synthReplaceLine l (serializeValue p))) ps
    | none => buildLoop ls ps

/-- `buildModifiedSource(originalSource, params)` of `app.js`. -/
def buildModifiedSource (originalSource : Str) (params : List Param) : Str :=
  joinNL (buildLoop (splitNL originalSource) params)

/-! ## The worker (`worker.js`): dependency cache, outcome classification,
message handler

The worker's effects are embedded by explicit state passing: the network
is a deterministic environment (`NetEnv`), the module-level `bosl2Cache`
is an explicit in/out parameter, and each `fetch(...)` call site is
counted in the result. -/

/-- A message posted back to the main thread
(`log` / `result` / `error`). -/
inductive OutMsg where
  | log : Str → Str → OutMsg
  | result : List Nat → OutMsg
  | error : Str → OutMsg
deriving DecidableEq

/-- The network as seen by `loadBOSL2`: the jsDelivr listing endpoint
(`Except` error for a failed or unparseable response) and per-file
bodies (`none` for a failed or non-ok fetch, which the source collapses
to `null`). -/
structure NetEnv where
  listing : Except Str (List Str)
  body : Str → Option Str

/-- `f.name.startsWith('/') ? f.name.slice(1) : f.name`. -/
def stripLeadSlash (s : Str) : Str :=
  match s with
  | '/' :: r => r
  | _ => s

/-- `name.endsWith('.scad')`. -/
def endsWithScad (s : Str) : Bool :=
  decide (s.reverse.take 5 = ".scad".data.reverse)

/-- Progress log text `BOSL2: d/t arquivos baixados…`. -/
def progressMsg (d t : Nat) : Str :=
  "BOSL2: ".data ++ natToChars d ++ '/' :: natToChars t ++ " arquivos baixados…".data

/-- The batched download loop of `loadBOSL2` (`worker.js` lines 73-103):
slices of `BATCH_SIZE = 15`, one fetch per file, failed fetches dropped,
a progress log after every batch except the last.  `Promise.all`
preserves order, so the batch is a plain traversal. -/
def goBatchesF (net : NetEnv) (total : Nat) : Nat → List Str → Nat → List (Str × Str) × List OutMsg
  | 0, _, _ => ([], [])
  | _ + 1, [], _ => ([], [])
  | fuel + 1, c :: rem', downloaded =>
    let batch := (c :: rem').take 15
    let rest := (c :: rem').drop 15
    let got := batch.filterMap fun n => (net.body n).map fun t => (n, t)
    let next := goBatchesF net total fuel rest (downloaded + got.length)
    if rest ≠ [] then
      (got ++ next.1, OutMsg.log (progressMsg (downloaded + got.length) total) "info".data :: next.2)
    else
      (got ++ next.1, next.2)

def goBatches (net : NetEnv) (total : Nat) (l : List Str) (downloaded : Nat) :
    List (Str × Str) × List OutMsg :=
  goBatchesF net total l.length l downloaded

deriving instance DecidableEq for Except

/-- The outcome of one `loadBOSL2()` call: its return value (or thrown
error), the module-level `bosl2Cache` afterwards, the number of
`fetch(...)` calls it performed, and the log messages it posted. -/
structure LoadResult where
  result : Except Str (List (Str × Str))
  cache : Option (List (Str × Str))
  fetches : Nat
  logs : List OutMsg
deriving DecidableEq

/-- `loadBOSL2()` of `worker.js` (lines 52-108): return the cache when it
is populated (no network activity at all); otherwise one listing fetch
(failure thrown), then strip leading slashes, keep `.scad` files, fetch
each body once in batches, drop failures, cache and return the file
set. -/
def loadBOSL2 (cache : Option (List (Str × Str))) (net : NetEnv) : LoadResult :=
  match cache with
  | some fs => ⟨Except.ok fs, some fs, 0, []⟩
  | none =>
    let hdr := OutMsg.log "Carregando biblioteca BOSL2…".data "info".data
    match net.listing with
    | Except.error e =>
      ⟨Except.error e, none, 1,
        [hdr, OutMsg.log ("Erro ao listar arquivos BOSL2: ".data ++ e) "error".data]⟩
    | Except.ok rawNames =>
      let fileList := (rawNames.map stripLeadSlash).filter endsWithScad
      let found := OutMsg.log
        ("BOSL2: ".data ++ natToChars fileList.length ++ " arquivos encontrados. Baixando…".data)
        "info".data
      let dl := goBatches net fileList.length fileList 0
      let files := dl.1
      let done := OutMsg.log
        ("BOSL2 carregada: ".data ++ natToChars files.length ++ " arquivos.".data)
        "success".data
      ⟨Except.ok files, some files, 1 + fileList.length, hdr :: found :: dl.2 ++ [done]⟩

/-- `/(?:include|use)\s*<\s*BOSL2\//.test(source)` at one position. -/
def needsBOSL2At (s : Str) : Bool :=
  let afterKw : Option Str :=
    if s.take 7 = "include".data then some (s.drop 7)
    else if s.take 3 = "use".data then some (s.drop 3)
    else none
  match afterKw with
  | some r =>
    match r.dropWhile jsSpace with
    | '<' :: r2 => decide ((r2.dropWhile jsSpace).take 6 = "BOSL2/".data)
    | _ => false
  | none => false

/-- `needsBOSL2(source)` of `worker.js`: the unanchored regex test scans
every position. -/
def needsBOSL2 : Str → Bool
  | [] => false
  | s@(_ :: rest) => needsBOSL2At s || needsBOSL2 rest

/-- The observable behaviour of `instance.callMain(mainArgs)` under the
`try`/`catch` of `compile` (`worker.js` lines 197-206): a normal exit
code, an exception carrying a `status` (unified with a normal exit by the
catch), or any other exception (re-thrown). -/
inductive RunOutcome where
  | exited : Int → RunOutcome
  | threwStatus : Int → RunOutcome
  | threwOther : Str → RunOutcome
deriving DecidableEq

/-- The message of the `ArtifactMissing` error thrown when
`/output.stl` cannot be read. -/
def stlMissingMsg : Str :=
  "Arquivo STL de saída não foi gerado. Verifique seu código .scad.".data

/-- The tail of `compile` (`worker.js` lines 196-217): run the engine,
record (and then never consult) the exit status, and classify the outcome
purely by whether `/output.stl` exists. -/
def compileStep (run : RunOutcome) (artifact : Option (List Nat)) : Except Str (List Nat) :=
  match run with
  | RunOutcome.threwOther m => Except.error m
  | _ =>
    let exitCode : Int :=
      match run with
      | RunOutcome.exited c => c
      | RunOutcome.threwStatus c => c
      | RunOutcome.threwOther _ => 0
    let _ := exitCode
    match artifact with
    | some stlData => Except.ok stlData
    | none => Except.error stlMissingMsg

/-- The per-request environment of one `compile` call: factory load
outcome, network, engine outcome, and the artifact left (or not) in the
instance's virtual filesystem. -/
structure WorkerEnv where
  factory : Except Str Unit
  net : NetEnv
  run : RunOutcome
  artifact : Option (List Nat)

/-- `compile(scadSource, params)` of `worker.js` at the level the claims
need: factory load, conditional BOSL2 resolution (a listing failure is
thrown, aborting the request), then engine execution classified by
`compileStep`.  Returns the result, the module-level cache afterwards,
and the log messages streamed while compiling (engine stdout/stderr
relayed through `print`/`printErr` is part of `env.run` and not broken out
further, since no claim concerns individual engine lines). -/
def compileModel (scadSource : Str) (cache : Option (List (Str × Str))) (env : WorkerEnv) :
    Except Str (List Nat) × Option (List (Str × Str)) × List OutMsg :=
  match env.factory with
  | Except.error e =>
    (Except.error e, cache,
      [OutMsg.log "Carregando OpenSCAD WASM (~7 MB)…".data "info".data,
       OutMsg.log ("Erro ao carregar OpenSCAD WASM: ".data ++ e) "error".data])
  | Except.ok _ =>
    let factoryLogs := [OutMsg.log "Carregando OpenSCAD WASM (~7 MB)…".data "info".data,
      OutMsg.log "OpenSCAD WASM carregado com sucesso.".data "success".data]
    if needsBOSL2 scadSource then
      let lr := loadBOSL2 cache env.net
      match lr.result with
      | Except.error e => (Except.error e, lr.cache, factoryLogs ++ lr.logs)
      | Except.ok _ =>
        (compileStep env.run env.artifact, lr.cache,
          factoryLogs ++ lr.logs ++
            [OutMsg.log "Inicializando instância OpenSCAD…".data "info".data,
             OutMsg.log "Compilando…".data "info".data])
    else
      (compileStep env.run env.artifact, cache,
        factoryLogs ++
          [OutMsg.log "Inicializando instância OpenSCAD…".data "info".data,
           OutMsg.log "Compilando…".data "info".data])

/-- The worker's `message` listener (`worker.js` lines 221-236): only a
`compile`-typed message does anything; compile logs are streamed, then
the result is posted as a single terminal `result` or `error` message.
Any other message type falls through the `if` and posts nothing (every
`log(...)` call site in the worker is inside the compile path). -/
def handleMessage (msgType : Str) (scadSource : Str) (cache : Option (List (Str × Str)))
    (env : WorkerEnv) : List OutMsg × Option (List (Str × Str)) :=
  if msgType = "compile".data then
    match compileModel scadSource cache env with
    | (Except.ok stl, c', logs) => (logs ++ [OutMsg.result stl], c')
    | (Except.error m, c', logs) => (logs ++ [OutMsg.error m], c')
  else ([], cache)

/-- The descriptor extracted from `x = 1;`. -/
def samplePlainParam : Param :=
  { name := ['x'], sectionLabel := none, line := 0, rawLine := "x = 1;".data,
    comment := [], description := [], type := PType.number,
    value := JSValue.numV (JSNum.fin ⟨1, 1⟩), options := none,
    min := none, max := none, step := none }

/-- The descriptor extracted from `x = 30; // [10:100]`. -/
def sampleRangeParam : Param :=
  { name := ['x'], sectionLabel := none, line := 0, rawLine := "x = 30; // [10:100]".data,
    comment := "[10:100]".data, description := [], type := PType.number,
    value := JSValue.numV (JSNum.fin ⟨30, 1⟩), options := none,
    min := some (JSNum.fin ⟨10, 1⟩), max := some (JSNum.fin ⟨100, 1⟩), step := none }

/-- The descriptor extracted from `r = 19; // [5:0.5:40]`. -/
def sampleStepParam : Param :=
  { name := ['r'], sectionLabel := none, line := 0, rawLine := "r = 19; // [5:0.5:40]".data,
    comment := "[5:0.5:40]".data, description := [], type := PType.number,
    value := JSValue.numV (JSNum.fin ⟨19, 1⟩), options := none,
    min := some (JSNum.fin ⟨5, 1⟩), max := some (JSNum.fin ⟨40, 1⟩),
    step := some (JSNum.fin ⟨1, 2⟩) }

/-! ## Helper lemmas: character classes, trimming, line splitting -/

theorem jsWord_not_space {c : Char} (h : jsWord c = true) : jsSpace c = false := by
  rw [Bool.eq_false_iff]
  intro hs
  simp only [jsWord, jsDigit, Bool.or_eq_true, Bool.and_eq_true, decide_eq_true_eq] at h
  simp only [jsSpace, Bool.or_eq_true, Bool.and_eq_true, decide_eq_true_eq] at hs
  omega

theorem jsDigit_not_space {c : Char} (h : jsDigit c = true) : jsSpace c = false := by
  rw [Bool.eq_false_iff]
  intro hs
  simp only [jsDigit, Bool.and_eq_true, decide_eq_true_eq] at h
  simp only [jsSpace, Bool.or_eq_true, Bool.and_eq_true, decide_eq_true_eq] at hs
  omega

theorem takeWhile_all {p : α → Bool} {l : List α} : ∀ a ∈ l.takeWhile p, p a = true := by
  induction l with
  | nil => intro a ha; simp at ha
  | cons x xs ih =>
    intro a ha
    by_cases hx : p x
    · rw [List.takeWhile_cons_of_pos hx] at ha
      rw [List.mem_cons] at ha
      rcases ha with ha | ha
      · rw [ha]; exact hx
      · exact ih a ha
    · rw [List.takeWhile_cons_of_neg hx] at ha
      simp at ha

theorem takeWhile_append_of_all {p : α → Bool} {A : List α} (B : List α)
    (h : ∀ a ∈ A, p a = true) : (A ++ B).takeWhile p = A ++ B.takeWhile p := by
  induction A with
  | nil => rfl
  | cons x xs ih =>
    have hx : p x = true := h x (by simp)
    simp only [List.cons_append, List.takeWhile_cons_of_pos hx]
    rw [ih fun a ha => h a (by simp [ha])]

theorem dropWhile_append_of_all {p : α → Bool} {A : List α} (B : List α)
    (h : ∀ a ∈ A, p a = true) : (A ++ B).dropWhile p = B.dropWhile p := by
  induction A with
  | nil => rfl
  | cons x xs ih =>
    have hx : p x = true := h x (by simp)
    simp only [List.cons_append, List.dropWhile_cons_of_pos hx]
    exact ih fun a ha => h a (by simp [ha])

theorem takeWhile_eq_self_append {p : α → Bool} (l : List α) :
    l = l.takeWhile p ++ l.dropWhile p := (List.takeWhile_append_dropWhile p l).symm

theorem dropWhile_head_false {p : α → Bool} {l : List α} {a : α} {l' : List α}
    (h : l.dropWhile p = a :: l') : p a = false := by
  have := List.head?_dropWhile_not p l
  rw [h] at this
  simpa using this

theorem takeWhile_eq_nil_of_head {p : α → Bool} {a : α} {l : List α} (h : p a = false) :
    (a :: l).takeWhile p = [] := by
  simp [List.takeWhile_cons, h]

theorem dropWhile_eq_self_of_head {p : α → Bool} {a : α} {l : List α} (h : p a = false) :
    (a :: l).dropWhile p = a :: l := by
  simp [List.dropWhile_cons, h]

theorem dropWhile_eq_self_iff_head {p : α → Bool} {l : List α}
    (h : ∀ a, l.head? = some a → p a = false) : l.dropWhile p = l := by
  cases l with
  | nil => rfl
  | cons x xs => exact dropWhile_eq_self_of_head (h x rfl)

theorem dropWhile_head?_false {p : α → Bool} {l : List α} {a : α}
    (h : (l.dropWhile p).head? = some a) : p a = false := by
  cases hd : l.dropWhile p with
  | nil => rw [hd] at h; cases h
  | cons x xs =>
    rw [hd] at h
    simp only [List.head?_cons, Option.some_inj] at h
    rw [← h]
    exact dropWhile_head_false hd

theorem head?_append_left {A B : List α} {a : α} (h : A.head? = some a) :
    (A ++ B).head? = some a := by
  cases A with
  | nil => cases h
  | cons x xs => exact h

/-- Decomposition of a string around its trim: the trimmed part is
surrounded by all-space stretches, and when nonempty neither touches a
space at either end. -/
theorem jsTrim_decomp (s : Str) :
    ∃ a b, s = a ++ jsTrim s ++ b ∧ (∀ c ∈ a, jsSpace c = true) ∧
      (∀ c ∈ b, jsSpace c = true) ∧
      (∀ c, (jsTrim s).head? = some c → jsSpace c = false) ∧
      (∀ c, (jsTrim s).getLast? = some c → jsSpace c = false) := by
  have hu : s = s.takeWhile jsSpace ++ s.dropWhile jsSpace :=
    takeWhile_eq_self_append s
  have hw : (s.dropWhile jsSpace).reverse =
      (s.dropWhile jsSpace).reverse.takeWhile jsSpace ++
        (s.dropWhile jsSpace).reverse.dropWhile jsSpace :=
    takeWhile_eq_self_append _
  have hu2 : s.dropWhile jsSpace =
      jsTrim s ++ ((s.dropWhile jsSpace).reverse.takeWhile jsSpace).reverse := by
    have h2 := congrArg List.reverse hw
    rw [List.reverse_reverse, List.reverse_append] at h2
    exact h2
  refine ⟨s.takeWhile jsSpace, ((s.dropWhile jsSpace).reverse.takeWhile jsSpace).reverse,
    ?_, fun c hc => takeWhile_all c hc, ?_, ?_, ?_⟩
  · conv_lhs => rw [hu, hu2]
    rw [List.append_assoc]
  · intro c hc
    rw [List.mem_reverse] at hc
    exact takeWhile_all c hc
  · intro c hc
    have hhead : (s.dropWhile jsSpace).head? = some c := by
      rw [hu2]
      exact head?_append_left hc
    exact dropWhile_head?_false hhead
  · intro c hc
    unfold jsTrim at hc
    rw [List.getLast?_reverse] at hc
    exact dropWhile_head?_false hc

theorem getAt_setAt_ne {ls : List α} {i j : Nat} {x : α} (h : i ≠ j) :
    getAt (setAt ls j x) i = getAt ls i := by
  induction ls generalizing i j with
  | nil => rfl
  | cons a l ih =>
    cases j with
    | zero =>
      cases i with
      | zero => exact absurd rfl h
      | succ i' => rfl
    | succ j' =>
      cases i with
      | zero => rfl
      | succ i' => exact ih fun hh => h (by rw [hh])

theorem getAt_setAt_self {ls : List α} {i : Nat} {x a : α} (h : getAt ls i = some a) :
    getAt (setAt ls i x) i = some x := by
  induction ls generalizing i with
  | nil => cases h
  | cons b l ih =>
    cases i with
    | zero => rfl
    | succ i' => exact ih h

/-! ## Helper lemmas: the lazy quantifier and the greedy backtracking -/

/-- Shifting the accumulator out of `lazySearch`. -/
theorem lazySearch_acc (t : Str → Option α) (s : Str) :
    ∀ acc, lazySearch t acc s = (lazySearch t [] s).map fun r => (acc ++ r.1, r.2) := by
  induction s with
  | nil => intro acc; rfl
  | cons c rest ih =>
    intro acc
    unfold lazySearch
    by_cases hd : jsDot c = true
    · simp only [if_pos hd]
      cases ht : t rest with
      | some a => simp
      | none =>
        show lazySearch t (acc ++ [c]) rest =
          Option.map (fun r => (acc ++ r.1, r.2)) (lazySearch t [c] rest)
        rw [ih (acc ++ [c]), ih [c]]
        cases lazySearch t [] rest with
        | none => rfl
        | some r => simp
    · simp only [if_neg hd]
      rfl

/-- Soundness of the lazy `.+?`: a successful search takes the shortest
nonempty prefix whose complement satisfies the tail, and every character
it consumed is in the `.` class. -/
theorem lazySearch_sound {t : Str → Option α} {s v : Str} {a : α}
    (h : lazySearch t [] s = some (v, a)) :
    v ≠ [] ∧ v = s.take v.length ∧ t (s.drop v.length) = some a ∧
      (∀ j, 1 ≤ j → j < v.length → t (s.drop j) = none) ∧
      ∀ c ∈ v, jsDot c = true := by
  induction s generalizing v with
  | nil => cases h
  | cons c rest ih =>
    unfold lazySearch at h
    by_cases hd : jsDot c = true
    · rw [if_pos hd] at h
      cases ht : t rest with
      | some a0 =>
        rw [ht] at h
        simp only [List.nil_append, Option.some_inj, Prod.mk.injEq] at h
        obtain ⟨hv, ha⟩ := h
        subst hv
        subst ha
        refine ⟨by simp, by simp, by simpa using ht, ?_, ?_⟩
        · intro j h1 h2
          simp at h2
          omega
        · intro x hx
          rw [List.mem_singleton] at hx
          rw [hx]
          exact hd
      | none =>
        rw [ht] at h
        have h2 : lazySearch t [c] rest = some (v, a) := h
        rw [lazySearch_acc t rest [c]] at h2
        cases hrec : lazySearch t [] rest with
        | none => rw [hrec] at h2; cases h2
        | some r =>
          rw [hrec] at h2
          simp only [Option.map_some', Option.some_inj] at h2
          obtain ⟨v', a'⟩ := r
          simp only [Prod.mk.injEq] at h2
          obtain ⟨hv, ha⟩ := h2
          have ih2 := ih (v := v') (by rw [hrec, ha])
          obtain ⟨hne, htake, htail, hmin, hdot⟩ := ih2
          subst hv
          constructor
          · simp
          refine ⟨?_, ?_, ?_, ?_⟩
          · simpa using htake
          · simpa using htail
          · intro j h1 h2
            cases j with
            | zero => omega
            | succ j' =>
              cases j' with
              | zero => simpa using ht
              | succ j'' =>
                have := hmin (j'' + 1) (by omega) (by simp at h2; omega)
                simpa using this
          · intro x hx
            rcases List.mem_cons.mp hx with hx | hx
            · rw [hx]
              exact hd
            · exact hdot x hx
    · rw [if_neg hd] at h
      cases h

/-- Completeness of the lazy `.+?`: if some nonempty split with a
consumable (`.`-class) prefix satisfies the tail, the search succeeds. -/
theorem lazySearch_complete {t : Str → Option α} {s : Str} :
    lazySearch t [] s = none →
      ∀ u rest, s = u ++ rest → u ≠ [] → (∀ c ∈ u, jsDot c = true) → t rest = none := by
  induction s with
  | nil =>
    intro _ u rest hs hu _
    exact absurd (List.append_eq_nil.mp hs.symm).1 hu
  | cons c s' ih =>
    intro h u rest hs hu hud
    unfold lazySearch at h
    by_cases hd : jsDot c = true
    · rw [if_pos hd] at h
      cases ht : t s' with
      | some a0 => rw [ht] at h; cases h
      | none =>
        rw [ht] at h
        have h2 : lazySearch t [c] s' = none := h
        rw [lazySearch_acc t s' [c]] at h2
        cases hrec : lazySearch t [] s' with
        | some r => rw [hrec] at h2; cases h2
        | none =>
          cases u with
          | nil => exact absurd rfl hu
          | cons c0 u' =>
            simp only [List.cons_append, List.cons.injEq] at hs
            obtain ⟨hc0, hs'⟩ := hs
            cases u' with
            | nil =>
              simp only [List.nil_append] at hs'
              rw [← hs']
              exact ht
            | cons c1 u'' =>
              exact ih hrec (c1 :: u'') rest hs' (by simp)
                (fun x hx => hud x (List.mem_cons_of_mem c0 hx))
    · exfalso
      cases u with
      | nil => exact absurd rfl hu
      | cons c0 u' =>
        simp only [List.cons_append, List.cons.injEq] at hs
        have hcd := hud c0 (List.mem_cons_self c0 u')
        rw [← hs.1] at hcd
        exact absurd hcd hd

/-- Case analysis for the greedy-`\s*` backtracking: either the greedy
maximum already admits a lazy match, or some whitespace was given back and
exactly one given-back space became the whole `.+?` text. -/
theorem spaceBacktrack_cases {t : Str → Option α} :
    ∀ {wsRev start kept v : Str} {a : α},
      (∀ c ∈ wsRev, jsSpace c = true) →
      spaceBacktrack t wsRev start = some (kept, v, a) →
      (kept = wsRev.reverse ∧ lazySearch t [] start = some (v, a)) ∨
      (∃ s, v = [s] ∧ jsSpace s = true ∧ lazySearch t [] start = none) := by
  intro wsRev
  induction wsRev with
  | nil =>
    intro start kept v a _ h
    unfold spaceBacktrack at h
    cases hl : lazySearch t [] start with
    | some r =>
      rw [hl] at h
      obtain ⟨v0, a0⟩ := r
      simp only [Option.some_inj, Prod.mk.injEq] at h
      obtain ⟨h1, h2, h3⟩ := h
      subst h2
      subst h3
      left
      exact ⟨by rw [List.reverse_nil]; exact h1.symm, rfl⟩
    | none => rw [hl] at h; cases h
  | cons s ws' ih =>
    intro start kept v a hws h
    unfold spaceBacktrack at h
    cases hl : lazySearch t [] start with
    | some r =>
      rw [hl] at h
      obtain ⟨v0, a0⟩ := r
      simp only [Option.some_inj, Prod.mk.injEq] at h
      obtain ⟨h1, h2, h3⟩ := h
      subst h2
      subst h3
      left
      exact ⟨h1.symm, rfl⟩
    | none =>
      rw [hl] at h
      have hs : jsSpace s = true := hws s (by simp)
      have hrec : spaceBacktrack t ws' (s :: start) = some (kept, v, a) := h
      have ihr := ih (fun c hc => hws c (by simp [hc])) hrec
      rcases ihr with ⟨hk, hlz⟩ | ⟨s2, hv, hsp2, _⟩
      · by_cases hds : jsDot s = true
        · unfold lazySearch at hlz
          rw [if_pos hds] at hlz
          cases hts : t start with
          | some a1 =>
            rw [hts] at hlz
            simp only [List.nil_append, Option.some_inj, Prod.mk.injEq] at hlz
            right
            exact ⟨s, hlz.1.symm, hs, rfl⟩
          | none =>
            exfalso
            rw [hts] at hlz
            have h3 : lazySearch t [s] start = some (v, a) := hlz
            rw [lazySearch_acc t start [s], hl] at h3
            cases h3
        · exfalso
          unfold lazySearch at hlz
          rw [if_neg hds] at hlz
          cases hlz
      · right
        exact ⟨s2, hv, hsp2, rfl⟩

/-- Shape of a successful `tryTailVar`: whitespace, then `;`, then the
rest (itself whitespace followed by end or a `//` comment). -/
theorem tryTailVar_shape {r : Str} {com : Option Str} (h : tryTailVar r = some com) :
    ∃ r2, r = r.takeWhile jsSpace ++ ';' :: r2 ∧ r.dropWhile jsSpace = ';' :: r2 := by
  unfold tryTailVar at h
  split at h
  · next r2 heq =>
    refine ⟨r2, ?_, heq⟩
    conv_lhs => rw [takeWhile_eq_self_append (p := jsSpace) r]
    rw [heq]
  · cases h

/-- `tryTailVar` ignores prepended whitespace entirely. -/
theorem tryTailVar_space {c : Char} {r : Str} (hc : jsSpace c = true) :
    tryTailVar (c :: r) = tryTailVar r := by
  unfold tryTailVar
  rw [List.dropWhile_cons_of_pos hc]

/-- `tryTailSynth` succeeds on prepended whitespace iff it succeeds
without it. -/
theorem tryTailSynth_space {c : Char} {r : Str} (hc : jsSpace c = true) :
    (tryTailSynth (c :: r)).isSome = (tryTailSynth r).isSome := by
  unfold tryTailSynth
  rw [List.dropWhile_cons_of_pos hc]
  cases r.dropWhile jsSpace with
  | nil => rfl
  | cons x r2 =>
    by_cases hx : x = ';' <;> cases hall : r2.all jsDot <;> simp [hx, hall]

theorem parseFloatJS_semi (rv' : Str) : parseFloatJS (';' :: rv') = JSNum.nan := rfl

theorem parseValue_nil : parseValue [] = none := by decide

theorem parseValue_ne_semi {rv : Str} {tv : PType × JSValue} (h : parseValue rv = some tv) :
    rv.head? ≠ some ';' := by
  intro hsemi
  cases rv with
  | nil => cases hsemi
  | cons c rv' =>
    simp only [List.head?_cons, Option.some_inj] at hsemi
    subst hsemi
    unfold parseValue at h
    rw [if_neg (fun hh => by
      have h2 : (some ';' : Option Char) = some 't' := congrArg List.head? hh
      exact absurd h2 (by decide))] at h
    rw [if_neg (fun hh => by
      have h2 : (some ';' : Option Char) = some 'f' := congrArg List.head? hh
      exact absurd h2 (by decide))] at h
    rw [if_neg (fun hq => by
      have h2 : (some ';' : Option Char) = some '"' := hq.1
      exact absurd h2 (by decide))] at h
    rw [parseFloatJS_semi] at h
    exact Option.noConfusion h

theorem exists_concat_of_getLast? {l : List α} {a : α} (h : l.getLast? = some a) :
    ∃ l', l = l' ++ [a] := by
  induction l with
  | nil => cases h
  | cons x xs ih =>
    cases xs with
    | nil =>
      simp only [List.getLast?_singleton, Option.some_inj] at h
      exact ⟨[], by rw [h]; rfl⟩
    | cons y ys =>
      rw [List.getLast?_cons_cons] at h
      obtain ⟨l', hl'⟩ := ih h
      exact ⟨x :: l', by rw [List.cons_append, ← hl']⟩

theorem jsTrim_eq_self {v : Str} (hh : ∀ c, v.head? = some c → jsSpace c = false)
    (hl : ∀ c, v.getLast? = some c → jsSpace c = false) : jsTrim v = v := by
  unfold jsTrim
  rw [dropWhile_eq_self_iff_head hh]
  rw [dropWhile_eq_self_iff_head (fun c hc => hl c (by rwa [List.head?_reverse] at hc))]
  exact List.reverse_reverse v

theorem head?_take_pos {l : List α} {n : Nat} (hn : 1 ≤ n) : (l.take n).head? = l.head? := by
  cases l with
  | nil => simp
  | cons x xs =>
    cases n with
    | zero => omega
    | succ m => simp

/-- Everything the assignment regex guarantees about a line that produced
a descriptor: the structured decomposition of the line, the shape
constraints on every piece, and the minimality of the lazily matched
value token. -/
theorem varMatch_parse_decomp {line : Str} {vm : VarMatch} {tv : PType × JSValue}
    (hvm : varMatchFn line = some vm) (hpv : parseValue (jsTrim vm.value) = some tv) :
    ∃ ws2 wsP rest,
      line = vm.name ++ ws2 ++ '=' :: (wsP ++ vm.value ++ rest) ∧
      vm.name ≠ [] ∧ (∀ c ∈ vm.name, jsWord c = true) ∧
      (∀ c ∈ ws2, jsSpace c = true) ∧ (∀ c ∈ wsP, jsSpace c = true) ∧
      tryTailVar rest = some vm.comment ∧
      vm.value ≠ [] ∧
      (∀ c, vm.value.head? = some c → jsSpace c = false ∧ c ≠ ';') ∧
      (∀ c, vm.value.getLast? = some c → jsSpace c = false) ∧
      jsTrim vm.value = vm.value ∧
      (∀ j, 1 ≤ j → j < vm.value.length → tryTailVar ((vm.value ++ rest).drop j) = none) := by
  obtain ⟨vname, vvalue, vcomment⟩ := vm
  unfold varMatchFn at hvm
  split at hvm
  · exact Option.noConfusion hvm
  rename_i hname
  split at hvm
  · rename_i r3 heq
    split at hvm
    · rename_i kept v com heq2
      simp only [Option.some_inj, VarMatch.mk.injEq] at hvm
      obtain ⟨hn, hv, hc⟩ := hvm
      subst hn
      subst hv
      subst hc
      dsimp only at hpv ⊢
      have hws : ∀ c ∈ (r3.takeWhile jsSpace).reverse, jsSpace c = true :=
        fun c hc0 => takeWhile_all c (List.mem_reverse.mp hc0)
      rcases spaceBacktrack_cases hws heq2 with ⟨hk, hlz⟩ | ⟨s, hvs, hss, _⟩
      · obtain ⟨hne, htake, htail, hmin, _⟩ := lazySearch_sound hlz
        have hcore : r3.dropWhile jsSpace = v ++ (r3.dropWhile jsSpace).drop v.length := by
          conv_lhs => rw [← List.take_append_drop v.length (r3.dropWhile jsSpace)]
          rw [← htake]
        have hvhead : ∀ c, v.head? = some c → jsSpace c = false := by
          intro c hc0
          have h1 : (r3.dropWhile jsSpace).head? = some c := by
            rw [← head?_take_pos (l := r3.dropWhile jsSpace) (List.length_pos.mpr hne),
              ← htake]
            exact hc0
          exact dropWhile_head?_false h1
        have hvlast : ∀ c, v.getLast? = some c → jsSpace c = false := by
          intro c hc0
          by_contra hcs
          rw [Bool.not_eq_false] at hcs
          obtain ⟨v', hv'⟩ := exists_concat_of_getLast? hc0
          cases v' with
          | nil =>
            have hh : v.head? = some c := by rw [hv']; rfl
            rw [hvhead c hh] at hcs
            cases hcs
          | cons x vs =>
            have hwlen : v.length - 1 = (x :: vs).length := by rw [hv']; simp
            have hcore2 : r3.dropWhile jsSpace =
                (x :: vs) ++ ([c] ++ (r3.dropWhile jsSpace).drop v.length) := by
              conv_lhs => rw [hcore]
              rw [hv', List.append_assoc]
            have hj := hmin (v.length - 1) (by rw [hwlen]; simp)
              (Nat.sub_lt (by rw [hv']; simp) Nat.one_pos)
            rw [hwlen] at hj
            conv at hj => rw [hcore2]
            rw [List.drop_left, List.singleton_append, tryTailVar_space hcs, htail] at hj
            exact Option.noConfusion hj
        have hjt : jsTrim v = v := jsTrim_eq_self hvhead hvlast
        have hpv' : parseValue (jsTrim v) = some tv := hpv
        have hsemi : v.head? ≠ some ';' := by
          rw [← hjt]
          exact parseValue_ne_semi (by rw [hjt]; rw [hjt] at hpv'; exact hpv')
        refine ⟨(line.dropWhile jsWord).takeWhile jsSpace, r3.takeWhile jsSpace,
          (r3.dropWhile jsSpace).drop v.length,
          ?_, hname, ?_, ?_, ?_, ?_, ?_, ?_, ?_, ?_, ?_⟩
        · conv_lhs => rw [takeWhile_eq_self_append (p := jsWord) line]
          rw [List.append_assoc, List.append_right_inj]
          conv_lhs => rw [takeWhile_eq_self_append (p := jsSpace) (line.dropWhile jsWord)]
          rw [List.append_right_inj, heq, List.cons.injEq]
          refine ⟨rfl, ?_⟩
          conv_lhs => rw [takeWhile_eq_self_append (p := jsSpace) r3]
          rw [List.append_assoc, List.append_right_inj]
          exact hcore
        · exact fun c hc0 => takeWhile_all c hc0
        · exact fun c hc0 => takeWhile_all c hc0
        · exact fun c hc0 => takeWhile_all c hc0
        · exact htail
        · exact hne
        · intro c hc0
          refine ⟨hvhead c hc0, fun hcc => ?_⟩
          rw [hcc] at hc0
          exact hsemi hc0
        · exact hvlast
        · exact hjt
        · intro j hj1 hj2
          rw [← hcore]
          exact hmin j hj1 hj2
      · exfalso
        have hjt0 : jsTrim v = [] := by
          rw [hvs]
          unfold jsTrim
          rw [List.dropWhile_cons_of_pos hss]
          rfl
        have hpv' : parseValue (jsTrim v) = some tv := hpv
        rw [hjt0, parseValue_nil] at hpv'
        exact Option.noConfusion hpv'
    · exact Option.noConfusion hvm
  · exact Option.noConfusion hvm

theorem takeWhile_append_eq_self {p : α → Bool} {A B : List α}
    (hA : ∀ a ∈ A, p a = true) (hB : ∀ c, B.head? = some c → p c = false) :
    (A ++ B).takeWhile p = A := by
  rw [takeWhile_append_of_all B hA]
  cases B with
  | nil => simp
  | cons c B' => rw [takeWhile_eq_nil_of_head (hB c rfl), List.append_nil]

theorem dropWhile_append_eq {p : α → Bool} {A B : List α}
    (hA : ∀ a ∈ A, p a = true) (hB : ∀ c, B.head? = some c → p c = false) :
    (A ++ B).dropWhile p = B := by
  rw [dropWhile_append_of_all B hA]
  exact dropWhile_eq_self_iff_head hB

theorem spaceBacktrack_of_lazy {t : Str → Option α} {start v : Str} {a : α}
    (h : lazySearch t [] start = some (v, a)) (wsRev : Str) :
    spaceBacktrack t wsRev start = some (wsRev.reverse, v, a) := by
  cases wsRev with
  | nil => unfold spaceBacktrack; rw [h]; rfl
  | cons s ws' => unfold spaceBacktrack; rw [h]

theorem tryTailSynth_none_of_head {r : Str}
    (h : ∀ c, (r.dropWhile jsSpace).head? = some c → c ≠ ';') : tryTailSynth r = none := by
  unfold tryTailSynth
  split
  · next r2 heq => exact absurd rfl (h ';' (by rw [heq]; rfl))
  · rfl

theorem tryTailSynth_some_shape {r suf : Str} (h : tryTailSynth r = some suf) :
    ∃ r2, r.dropWhile jsSpace = ';' :: r2 ∧ suf = r.takeWhile jsSpace ++ ';' :: r2 ∧
      r = r.takeWhile jsSpace ++ ';' :: r2 := by
  unfold tryTailSynth at h
  split at h
  · next r2 heq =>
    split at h
    · simp only [Option.some_inj] at h
      refine ⟨r2, heq, h.symm, ?_⟩
      conv_lhs => rw [takeWhile_eq_self_append (p := jsSpace) r]
      rw [heq]
    · exact Option.noConfusion h
  · exact Option.noConfusion h

theorem dropWhile_append_head_mem {p : α → Bool} {A X : List α}
    (hex : ∃ x ∈ A, p x = false) :
    ∃ y ∈ A, ((A ++ X).dropWhile p).head? = some y ∧ p y = false := by
  induction A with
  | nil =>
    obtain ⟨x, hx, _⟩ := hex
    simp at hx
  | cons c A' ih =>
    by_cases hc : p c
    · obtain ⟨x, hx, hxp⟩ := hex
      rw [List.mem_cons] at hx
      have hex' : ∃ x ∈ A', p x = false := by
        rcases hx with rfl | hx
        · rw [hc] at hxp; cases hxp
        · exact ⟨x, hx, hxp⟩
      obtain ⟨y, hy, hyh, hyp⟩ := ih hex'
      rw [List.cons_append, List.dropWhile_cons_of_pos hc]
      exact ⟨y, List.mem_cons_of_mem c hy, hyh, hyp⟩
    · rw [List.cons_append, dropWhile_eq_self_of_head (Bool.eq_false_iff.mpr hc)]
      exact ⟨c, List.mem_cons_self c A', rfl, Bool.eq_false_iff.mpr hc⟩

theorem drop_append_le {l1 l2 : List α} : ∀ {n : Nat}, n ≤ l1.length →
    (l1 ++ l2).drop n = l1.drop n ++ l2 := by
  induction l1 with
  | nil =>
    intro n hn
    have hn0 : n = 0 := Nat.le_zero.mp hn
    subst hn0
    rfl
  | cons x l1' ih =>
    intro n hn
    cases n with
    | zero => rfl
    | succ m => exact ih (by simp at hn; omega)

theorem take_append_self {l1 l2 : List α} : (l1 ++ l2).take l1.length = l1 := by
  induction l1 with
  | nil => rfl
  | cons x l1' ih => simp [ih]

theorem mem_of_mem_drop {l : List α} {n : Nat} {a : α} (h : a ∈ l.drop n) : a ∈ l := by
  have hsplit : l = l.take n ++ l.drop n := (List.take_append_drop n l).symm
  rw [hsplit]
  exact List.mem_append_right _ h

/-- For a nonempty all-not-`;` stretch that ends in a non-space character,
the synthesizer tail pattern fails: the first non-space character reached
is not a `;`. -/
theorem tryTailSynth_none_suffix {v X : Str} {c : Char} {j : Nat}
    (hlast : v.getLast? = some c) (hcns : jsSpace c = false)
    (hnos : ';' ∉ v) (hj : j < v.length) :
    tryTailSynth (v.drop j ++ X) = none := by
  obtain ⟨v', hv'⟩ := exists_concat_of_getLast? hlast
  have hcmem : c ∈ v.drop j := by
    rw [hv', drop_append_le (by rw [hv'] at hj; simp at hj; omega)]
    exact List.mem_append_right _ (by simp)
  apply tryTailSynth_none_of_head
  intro y hy
  obtain ⟨z, hz, hzh, _⟩ := dropWhile_append_head_mem (p := jsSpace) ⟨c, hcmem, hcns⟩ (X := X)
  rw [hzh] at hy
  simp only [Option.some_inj] at hy
  subst hy
  intro hsemi
  subst hsemi
  exact hnos (mem_of_mem_drop hz)

theorem jsSpace_not_word {c : Char} (h : jsSpace c = true) : jsWord c = false := by
  rw [Bool.eq_false_iff]
  intro hw
  rw [jsWord_not_space hw] at h
  cases h

theorem mem_of_head? {l : List α} {a : α} (h : l.head? = some a) : a ∈ l := by
  cases l with
  | nil => cases h
  | cons x xs =>
    simp only [List.head?_cons, Option.some_inj] at h
    rw [h]
    exact List.mem_cons_self a xs

theorem head?_append_or {A B : List α} {c : α} (h : (A ++ B).head? = some c) :
    A.head? = some c ∨ (A = [] ∧ B.head? = some c) := by
  cases A with
  | nil => exact Or.inr ⟨rfl, h⟩
  | cons x xs => exact Or.inl h

theorem take_append_le {l1 l2 : List α} : ∀ {n : Nat}, n ≤ l1.length →
    (l1 ++ l2).take n = l1.take n := by
  induction l1 with
  | nil =>
    intro n hn
    have hn0 : n = 0 := Nat.le_zero.mp hn
    subst hn0
    rfl
  | cons x l1' ih =>
    intro n hn
    cases n with
    | zero => rfl
    | succ m =>
      simp only [List.cons_append, List.take_succ_cons]
      rw [ih (by simp at hn; omega)]

theorem mem_of_mem_take {l : List α} {n : Nat} {a : α} (h : a ∈ l.take n) : a ∈ l := by
  have hsplit : l = l.take n ++ l.drop n := (List.take_append_drop n l).symm
  rw [hsplit]
  exact List.mem_append_left _ h

theorem tryTailSynth_semi {X : Str} (hX : X.all jsDot = true) :
    tryTailSynth (';' :: X) = some (';' :: X) := by
  show (if X.all jsDot then some ((';' :: X).takeWhile jsSpace ++ ';' :: X) else none) =
    some (';' :: X)
  rw [if_pos hX]
  rfl

/-- The synthesizer regex agrees with the extractor regex on every
terminator-free line that produced a descriptor: it matches, splits the
line right after the `=` (keeping the same whitespace), its replaced
middle is the nonempty `;`-free stretch up to the first `;` of the
value-and-tail region, and when the extracted value token itself contains
no `;` the middle is exactly that token.  (On a raw line with a stray
line terminator — e.g. a CRLF file — the synthesizer regex can fail even
though the extractor matched the trimmed line, hence the hypothesis.) -/
theorem synthMatch_of_varMatch {line : Str} {vm : VarMatch} {tv : PType × JSValue}
    (hvm : varMatchFn (jsTrim line) = some vm) (hpv : parseValue (jsTrim vm.value) = some tv)
    (hdot : ∀ c ∈ line, jsDot c = true) :
    ∃ pre mid suf,
      synthMatchFn line = some (pre, mid, suf) ∧
      line = pre ++ mid ++ suf ∧
      (∃ w1 w2 w3, pre = w1 ++ vm.name ++ w2 ++ '=' :: w3 ∧
        (∀ c ∈ w1, jsSpace c = true) ∧ (∀ c ∈ w2, jsSpace c = true) ∧
        (∀ c ∈ w3, jsSpace c = true)) ∧
      (∃ w4 tail, suf = w4 ++ ';' :: tail ∧ (∀ c ∈ w4, jsSpace c = true)) ∧
      mid ≠ [] ∧ ';' ∉ mid ∧
      (';' ∉ vm.value → mid = vm.value) := by
  obtain ⟨ws2, wsP, rest, hline, hnne, hword, hws2, hwsP, htv, hvne, hvhead, hvlast, hjt, hmin⟩ :=
    varMatch_parse_decomp hvm hpv
  obtain ⟨wsA, wsB, hdecomp, hA, hB, _, _⟩ := jsTrim_decomp line
  obtain ⟨n0, nr, hn0⟩ : ∃ n0 nr, vm.name = n0 :: nr := by
    cases hcn : vm.name with
    | nil => exact absurd hcn hnne
    | cons a b => exact ⟨a, b, rfl⟩
  obtain ⟨v0, vr, hv0⟩ : ∃ v0 vr, vm.value = v0 :: vr := by
    cases hcv : vm.value with
    | nil => exact absurd hcv hvne
    | cons a b => exact ⟨a, b, rfl⟩
  have hv0head : jsSpace v0 = false ∧ v0 ≠ ';' := hvhead v0 (by rw [hv0]; rfl)
  have hn0word : jsWord n0 = true := hword n0 (by rw [hn0]; exact List.mem_cons_self n0 nr)
  -- the right-associated normal form of the line
  have hlineN : line = wsA ++ (vm.name ++ (ws2 ++ ('=' :: (wsP ++
      (vm.value ++ (rest ++ wsB)))))) := by
    conv_lhs => rw [hdecomp, hline]
    simp only [List.append_assoc, List.cons_append]
  have hmemV : ∀ c ∈ vm.value ++ (rest ++ wsB), jsDot c = true := by
    intro c hc
    apply hdot
    rw [hlineN]
    simp only [List.mem_append, List.mem_cons] at hc ⊢
    tauto
  have e2 : line.dropWhile jsSpace = vm.name ++ (ws2 ++ ('=' :: (wsP ++
      (vm.value ++ (rest ++ wsB))))) := by
    conv_lhs => rw [hlineN]
    refine dropWhile_append_eq hA ?_
    intro c hc
    rw [hn0] at hc
    simp only [List.cons_append, List.head?_cons, Option.some_inj] at hc
    rw [← hc]
    exact jsWord_not_space hn0word
  have hZhead : ∀ c, (ws2 ++ ('=' :: (wsP ++ (vm.value ++ (rest ++ wsB))))).head? = some c →
      jsWord c = false := by
    intro c hc
    rcases head?_append_or hc with h | ⟨_, h⟩
    · exact jsSpace_not_word (hws2 c (mem_of_head? h))
    · simp only [List.head?_cons, Option.some_inj] at h
      rw [← h]
      decide
  have e3 : (line.dropWhile jsSpace).takeWhile jsWord = vm.name := by
    rw [e2]
    exact takeWhile_append_eq_self hword hZhead
  have e4 : (line.dropWhile jsSpace).dropWhile jsWord =
      ws2 ++ ('=' :: (wsP ++ (vm.value ++ (rest ++ wsB)))) := by
    rw [e2]
    exact dropWhile_append_eq hword hZhead
  have e5 : ((line.dropWhile jsSpace).dropWhile jsWord).takeWhile jsSpace = ws2 := by
    rw [e4]
    refine takeWhile_append_eq_self hws2 ?_
    intro c hc
    simp only [List.head?_cons, Option.some_inj] at hc
    rw [← hc]
    decide
  have e6 : ((line.dropWhile jsSpace).dropWhile jsWord).dropWhile jsSpace =
      '=' :: (wsP ++ (vm.value ++ (rest ++ wsB))) := by
    rw [e4]
    refine dropWhile_append_eq hws2 ?_
    intro c hc
    simp only [List.head?_cons, Option.some_inj] at hc
    rw [← hc]
    decide
  have e7 : (wsP ++ (vm.value ++ (rest ++ wsB))).takeWhile jsSpace = wsP := by
    refine takeWhile_append_eq_self hwsP ?_
    intro c hc
    rw [hv0] at hc
    simp only [List.cons_append, List.head?_cons, Option.some_inj] at hc
    rw [← hc]
    exact hv0head.1
  have e8 : (wsP ++ (vm.value ++ (rest ++ wsB))).dropWhile jsSpace =
      vm.value ++ (rest ++ wsB) := by
    refine dropWhile_append_eq hwsP ?_
    intro c hc
    rw [hv0] at hc
    simp only [List.cons_append, List.head?_cons, Option.some_inj] at hc
    rw [← hc]
    exact hv0head.1
  -- the tail of the value region satisfies the synthesizer tail pattern
  obtain ⟨r2, hrest, hrestd⟩ := tryTailVar_shape htv
  have hall8 : (r2 ++ wsB).all jsDot = true := by
    rw [List.all_eq_true]
    intro c hc
    rcases List.mem_append.mp hc with hc | hc
    · refine hmemV c (List.mem_append_right _ (List.mem_append_left _ ?_))
      rw [hrest]
      exact List.mem_append_right _ (List.mem_cons_of_mem ';' hc)
    · exact hmemV c (List.mem_append_right _ (List.mem_append_right _ hc))
  have h8 : tryTailSynth (rest ++ wsB) =
      some (rest.takeWhile jsSpace ++ ';' :: (r2 ++ wsB)) := by
    have hd : (rest ++ wsB).dropWhile jsSpace = ';' :: (r2 ++ wsB) := by
      conv_lhs => rw [hrest]
      rw [List.append_assoc, List.cons_append]
      refine dropWhile_append_eq (fun c hc => takeWhile_all c hc) ?_
      intro c hc
      simp only [List.head?_cons, Option.some_inj] at hc
      rw [← hc]
      decide
    have ht : (rest ++ wsB).takeWhile jsSpace = rest.takeWhile jsSpace := by
      conv_lhs => rw [hrest]
      rw [List.append_assoc, List.cons_append]
      refine takeWhile_append_eq_self (fun c hc => takeWhile_all c hc) ?_
      intro c hc
      simp only [List.head?_cons, Option.some_inj] at hc
      rw [← hc]
      decide
    unfold tryTailSynth
    simp only [hd]
    rw [if_pos hall8, ht]
  -- run the lazy search of the synthesizer on the value region
  cases hlz : lazySearch tryTailSynth [] (vm.value ++ (rest ++ wsB)) with
  | none =>
    exfalso
    have := lazySearch_complete hlz vm.value (rest ++ wsB) rfl hvne
      (fun c hc => hmemV c (List.mem_append_left _ hc))
    rw [h8] at this
    exact Option.noConfusion this
  | some r =>
    obtain ⟨mid, suf⟩ := r
    obtain ⟨hmne, htakeS, htailS, hminS, hmiddot⟩ := lazySearch_sound hlz
    have hmle : mid.length ≤ vm.value.length := by
      by_contra hgt
      rw [Nat.not_le] at hgt
      have hj := hminS vm.value.length (by rw [hv0]; simp) hgt
      rw [List.drop_left, h8] at hj
      exact Option.noConfusion hj
    have hmidtake : mid = vm.value.take mid.length := by
      conv_lhs => rw [htakeS]
      rw [take_append_le hmle]
    have hmidhead : mid.head? = vm.value.head? := by
      rw [hmidtake, head?_take_pos (List.length_pos.mpr hmne)]
    have hnosemi_mid : ';' ∉ mid := by
      intro hmem
      obtain ⟨m1, m2, hm12⟩ := List.append_of_mem hmem
      cases m1 with
      | nil =>
        have : mid.head? = some ';' := by rw [hm12]; rfl
        rw [hmidhead, hv0] at this
        simp only [List.head?_cons, Option.some_inj] at this
        exact hv0head.2 this
      | cons mc m1' =>
        have hlen : (mc :: m1').length < mid.length := by rw [hm12]; simp
        have hj := hminS (mc :: m1').length (by simp) hlen
        have hS : vm.value ++ (rest ++ wsB) = (mc :: m1') ++
            (';' :: (m2 ++ (vm.value ++ (rest ++ wsB)).drop mid.length)) := by
          conv_lhs => rw [← List.take_append_drop mid.length (vm.value ++ (rest ++ wsB)),
            ← htakeS]
          rw [hm12]
          simp only [List.append_assoc, List.cons_append]
        have hds : (vm.value ++ (rest ++ wsB)).drop (mc :: m1').length =
            ';' :: (m2 ++ (vm.value ++ (rest ++ wsB)).drop mid.length) := by
          conv_lhs => rw [hS]
          rw [List.drop_left]
        have hallX : (m2 ++ (vm.value ++ (rest ++ wsB)).drop mid.length).all jsDot = true := by
          rw [List.all_eq_true]
          intro x hx
          rcases List.mem_append.mp hx with hx | hx
          · refine hmiddot x ?_
            rw [hm12]
            exact List.mem_append_right _ (List.mem_cons_of_mem ';' hx)
          · exact hmemV x (mem_of_mem_drop hx)
        rw [hds, tryTailSynth_semi hallX] at hj
        exact Option.noConfusion hj
    have hmid_eq : ';' ∉ vm.value → mid = vm.value := by
      intro hnos
      have hmeq : mid.length = vm.value.length := by
        rcases Nat.lt_or_ge mid.length vm.value.length with hlt | hge
        · exfalso
          have hds : (vm.value ++ (rest ++ wsB)).drop mid.length =
              vm.value.drop mid.length ++ (rest ++ wsB) := drop_append_le hmle
          obtain ⟨c, hcl⟩ : ∃ c, vm.value.getLast? = some c := by
            rw [hv0]
            exact ⟨(v0 :: vr).getLast (by simp), List.getLast?_eq_getLast _ _⟩
          have := tryTailSynth_none_suffix hcl (hvlast c hcl) hnos hlt (X := rest ++ wsB)
          rw [← hds] at this
          rw [this] at htailS
          exact Option.noConfusion htailS
        · omega
      rw [hmidtake, hmeq, List.take_length]
    -- assemble the synthesizer match
    have e9 : spaceBacktrack tryTailSynth
        ((wsP ++ (vm.value ++ (rest ++ wsB))).takeWhile jsSpace).reverse
        ((wsP ++ (vm.value ++ (rest ++ wsB))).dropWhile jsSpace) = some (wsP, mid, suf) := by
      rw [e7, e8, spaceBacktrack_of_lazy hlz, List.reverse_reverse]
    have hwsA : line.takeWhile jsSpace = wsA := by
      conv_lhs => rw [hlineN]
      refine takeWhile_append_eq_self hA ?_
      intro c hc
      rw [hn0] at hc
      simp only [List.cons_append, List.head?_cons, Option.some_inj] at hc
      rw [← hc]
      exact jsWord_not_space hn0word
    have hsynth : synthMatchFn line = some (line.takeWhile jsSpace ++ vm.name ++ ws2 ++
        '=' :: wsP, mid, suf) := by
      unfold synthMatchFn
      rw [e3, if_neg hnne, e5, e6]
      simp only [e9]
    obtain ⟨r2s, hsufd, hsufeq, hsufsplit⟩ := tryTailSynth_some_shape htailS
    have hcoreS : vm.value ++ (rest ++ wsB) = mid ++ suf := by
      conv_lhs => rw [← List.take_append_drop mid.length (vm.value ++ (rest ++ wsB)),
        ← htakeS, hsufsplit, ← hsufeq]
    refine ⟨line.takeWhile jsSpace ++ vm.name ++ ws2 ++ '=' :: wsP, mid, suf,
      hsynth, ?_, ?_, ?_, hmne, hnosemi_mid, hmid_eq⟩
    · rw [hwsA]
      conv_lhs => rw [hlineN]
      simp only [List.append_assoc, List.cons_append]
      rw [hcoreS]
    · exact ⟨line.takeWhile jsSpace, ws2, wsP, rfl,
        fun c hc => takeWhile_all c hc, hws2, hwsP⟩
    · exact ⟨((vm.value ++ (rest ++ wsB)).drop mid.length).takeWhile jsSpace, r2s, hsufeq,
        fun c hc => takeWhile_all c hc⟩

/-! ## Helper lemmas: the extractor loop and the synthesizer loop -/

theorem applyComment_name (p : Param) (c : Str) : (applyComment p c).name = p.name := by
  unfold applyComment
  split
  · split <;> rfl
  · rfl

theorem applyComment_line (p : Param) (c : Str) : (applyComment p c).line = p.line := by
  unfold applyComment
  split
  · split <;> rfl
  · rfl

theorem applyComment_rawLine (p : Param) (c : Str) : (applyComment p c).rawLine = p.rawLine := by
  unfold applyComment
  split
  · split <;> rfl
  · rfl

theorem applyComment_value (p : Param) (c : Str) : (applyComment p c).value = p.value := by
  unfold applyComment
  split
  · split <;> rfl
  · rfl

theorem applyComment_comment (p : Param) (c : Str) : (applyComment p c).comment = p.comment := by
  unfold applyComment
  split
  · split <;> rfl
  · rfl

theorem applyComment_type (p : Param) (c : Str) :
    (applyComment p c).type = p.type ∨ (applyComment p c).type = PType.number := by
  unfold applyComment
  split
  · split
    · exact Or.inr rfl
    · exact Or.inl rfl
  · exact Or.inl rfl

theorem mkParam_name (vm : VarMatch) (tv : PType × JSValue) (sect : Option Str) (i : Nat)
    (l : Str) : (mkParam vm tv sect i l).name = vm.name := by
  unfold mkParam
  split
  · rw [applyComment_name]; rfl
  · rfl

theorem mkParam_line (vm : VarMatch) (tv : PType × JSValue) (sect : Option Str) (i : Nat)
    (l : Str) : (mkParam vm tv sect i l).line = i := by
  unfold mkParam
  split
  · rw [applyComment_line]; rfl
  · rfl

theorem mkParam_rawLine (vm : VarMatch) (tv : PType × JSValue) (sect : Option Str) (i : Nat)
    (l : Str) : (mkParam vm tv sect i l).rawLine = l := by
  unfold mkParam
  split
  · rw [applyComment_rawLine]; rfl
  · rfl

theorem mkParam_value (vm : VarMatch) (tv : PType × JSValue) (sect : Option Str) (i : Nat)
    (l : Str) : (mkParam vm tv sect i l).value = tv.2 := by
  unfold mkParam
  split
  · rw [applyComment_value]; rfl
  · rfl

theorem mkParam_comment (vm : VarMatch) (tv : PType × JSValue) (sect : Option Str) (i : Nat)
    (l : Str) : (mkParam vm tv sect i l).comment = jsTrim (vm.comment.getD []) := by
  unfold mkParam
  split
  · rw [applyComment_comment]; rfl
  · rfl

/-- Inversion for the extractor loop: every produced descriptor comes from
a line of the input that passed the assignment regex, the sigil check and
the literal parse, and is exactly the record the loop builds for it. -/
theorem parseLoop_mem {ls : List Str} {i0 : Nat} {sect : Option Str} {p : Param}
    (hmem : p ∈ parseLoop ls i0 sect) :
    ∃ k l vm tv sect', getAt ls k = some l ∧ p = mkParam vm tv sect' (i0 + k) l ∧
      varMatchFn (jsTrim l) = some vm ∧ vm.name.head? ≠ some '$' ∧
      parseValue (jsTrim vm.value) = some tv := by
  induction ls generalizing i0 sect with
  | nil => cases hmem
  | cons l rest ih =>
    unfold parseLoop at hmem
    split at hmem
    · obtain ⟨k, l', vm, tv, sect', h1, h2, h3, h4, h5⟩ := ih hmem
      exact ⟨k + 1, l', vm, tv, sect', h1, by rw [h2]; congr 1; omega, h3, h4, h5⟩
    · split at hmem
      · cases hmem
      · split at hmem
        · obtain ⟨k, l', vm, tv, sect', h1, h2, h3, h4, h5⟩ := ih hmem
          exact ⟨k + 1, l', vm, tv, sect', h1, by rw [h2]; congr 1; omega, h3, h4, h5⟩
        · rename_i vm hvm
          split at hmem
          · obtain ⟨k, l', vm', tv, sect', h1, h2, h3, h4, h5⟩ := ih hmem
            exact ⟨k + 1, l', vm', tv, sect', h1, by rw [h2]; congr 1; omega, h3, h4, h5⟩
          · rename_i hdollar
            split at hmem
            · obtain ⟨k, l', vm', tv, sect', h1, h2, h3, h4, h5⟩ := ih hmem
              exact ⟨k + 1, l', vm', tv, sect', h1, by rw [h2]; congr 1; omega, h3, h4, h5⟩
            · rename_i tv hpv
              rw [List.mem_cons] at hmem
              rcases hmem with hmem | hmem
              · exact ⟨0, l, vm, tv, sect, rfl, by rw [hmem]; congr 1, hvm, hdollar, hpv⟩
              · obtain ⟨k, l', vm', tv', sect', h1, h2, h3, h4, h5⟩ := ih hmem
                exact ⟨k + 1, l', vm', tv', sect', h1, by rw [h2]; congr 1; omega, h3, h4, h5⟩

theorem parseLoop_line_ge {ls : List Str} : ∀ {i0 : Nat} {sect : Option Str} (p : Param),
    p ∈ parseLoop ls i0 sect → i0 ≤ p.line := by
  induction ls with
  | nil => intro i0 sect p hmem; cases hmem
  | cons l rest ih =>
    intro i0 sect p hmem
    unfold parseLoop at hmem
    split at hmem
    · exact Nat.le_of_succ_le (ih p hmem)
    · split at hmem
      · cases hmem
      · split at hmem
        · exact Nat.le_of_succ_le (ih p hmem)
        · split at hmem
          · exact Nat.le_of_succ_le (ih p hmem)
          · split at hmem
            · exact Nat.le_of_succ_le (ih p hmem)
            · rw [List.mem_cons] at hmem
              rcases hmem with hmem | hmem
              · rw [hmem, mkParam_line]
              · exact Nat.le_of_succ_le (ih p hmem)

theorem parseLoop_pairwise {ls : List Str} : ∀ {i0 : Nat} {sect : Option Str},
    (parseLoop ls i0 sect).Pairwise (fun a b => a.line ≠ b.line) := by
  induction ls with
  | nil => intro i0 sect; exact List.Pairwise.nil
  | cons l rest ih =>
    intro i0 sect
    unfold parseLoop
    split
    · exact ih
    · split
      · exact List.Pairwise.nil
      · split
        · exact ih
        · split
          · exact ih
          · split
            · exact ih
            · refine List.Pairwise.cons ?_ ih
              intro q hq
              rw [mkParam_line]
              have := parseLoop_line_ge q hq
              omega

theorem buildLoop_getAt_notmem {ps : List Param} : ∀ {ls : List Str} {i : Nat},
    (∀ p ∈ ps, p.line ≠ i) → getAt (buildLoop ls ps) i = getAt ls i := by
  induction ps with
  | nil => intro ls i _; rfl
  | cons p ps' ih =>
    intro ls i h
    unfold buildLoop
    split
    · rw [ih fun q hq => h q (List.mem_cons_of_mem p hq)]
      exact getAt_setAt_ne fun hh => h p (List.mem_cons_self p ps') hh.symm
    · exact ih fun q hq => h q (List.mem_cons_of_mem p hq)

theorem buildLoop_getAt_mem {ps : List Param} : ∀ {ls : List Str} {p : Param} {l : Str},
    p ∈ ps → ps.Pairwise (fun a b => a.line ≠ b.line) → getAt ls p.line = some l →
    getAt (buildLoop ls ps) p.line = some (synthReplaceLine l (serializeValue p)) := by
  induction ps with
  | nil => intro ls p l hmem; cases hmem
  | cons q ps' ih =>
    intro ls p l hmem hpair hl
    rw [List.pairwise_cons] at hpair
    rw [List.mem_cons] at hmem
    rcases hmem with hmem | hmem
    · subst hmem
      unfold buildLoop
      split
      · rename_i l0 hl0
        rw [hl0] at hl
        simp only [Option.some_inj] at hl
        subst hl
        rw [buildLoop_getAt_notmem fun q hq => (hpair.1 q hq).symm]
        exact getAt_setAt_self hl0
      · rename_i hl0
        rw [hl0] at hl
        cases hl
    · unfold buildLoop
      split
      · rename_i l0 hl0
        refine ih hmem hpair.2 ?_
        rw [getAt_setAt_ne (Ne.symm (hpair.1 p hmem))]
        exact hl
      · exact ih hmem hpair.2 hl

/-- The batched download loop downloads each listed file exactly once and
keeps exactly those whose fetch succeeded, in listing order. -/
theorem goBatchesF_fst (net : NetEnv) (total : Nat) :
    ∀ (n : Nat) (l : List Str), l.length ≤ n → ∀ (d : Nat),
      (goBatchesF net total n l d).1 =
        l.filterMap fun nm => (net.body nm).map fun t => (nm, t) := by
  intro n
  induction n with
  | zero =>
    intro l hl d
    cases l with
    | nil => rfl
    | cons c r => simp at hl
  | succ m ih =>
    intro l hl d
    cases l with
    | nil => rfl
    | cons c rem' =>
      have hlen : ((c :: rem').drop 15).length ≤ m := by
        simp only [List.length_drop, List.length_cons]
        simp only [List.length_cons] at hl
        omega
      unfold goBatchesF
      dsimp only
      split
      · show ((c :: rem').take 15).filterMap (fun nm => (net.body nm).map fun t => (nm, t)) ++
          (goBatchesF net total m ((c :: rem').drop 15) _).1 = _
        rw [ih _ hlen]
        rw [← List.filterMap_append, List.take_append_drop]
      · show ((c :: rem').take 15).filterMap (fun nm => (net.body nm).map fun t => (nm, t)) ++
          (goBatchesF net total m ((c :: rem').drop 15) _).1 = _
        rw [ih _ hlen]
        rw [← List.filterMap_append, List.take_append_drop]

/-- Specialisation of the batch lemma to the real fuel. -/
theorem goBatches_fst (net : NetEnv) (total : Nat) (l : List Str) (d : Nat) :
    (goBatches net total l d).1 =
      l.filterMap fun nm => (net.body nm).map fun t => (nm, t) :=
  goBatchesF_fst net total l.length l (Nat.le_refl _) d

/-- A successful uncached resolution stores its result in the cache. -/
theorem loadBOSL2_populates {net : NetEnv} {r : List (Str × Str)}
    (hr : (loadBOSL2 none net).result = Except.ok r) :
    (loadBOSL2 none net).cache = some r := by
  cases hnet : net.listing with
  | error e =>
    have herr : (loadBOSL2 none net).result = Except.error e := by
      unfold loadBOSL2
      rw [hnet]
    rw [herr] at hr
    exact Except.noConfusion hr
  | ok names =>
    have hres : (loadBOSL2 none net).result =
        Except.ok (goBatches net ((names.map stripLeadSlash).filter endsWithScad).length
          ((names.map stripLeadSlash).filter endsWithScad) 0).1 := by
      unfold loadBOSL2
      rw [hnet]
    have hcache : (loadBOSL2 none net).cache =
        some (goBatches net ((names.map stripLeadSlash).filter endsWithScad).length
          ((names.map stripLeadSlash).filter endsWithScad) 0).1 := by
      unfold loadBOSL2
      rw [hnet]
    rw [hres] at hr
    simp only [Except.ok.injEq] at hr
    rw [hcache, hr]

/-! ## The claims -/

/-- Claim C2: after engine execution, presence of `/output.stl` is the sole
success predicate and its absence the sole failure predicate, for both a
normal exit and an exception carrying an exit status; a non-zero status
with an artifact is a success, a zero status without one is the
`ArtifactMissing` failure. -/
theorem claim2_artifact_presence_is_sole_outcome (c : Int) (art : Option (List Nat)) :
    ((∃ b, compileStep (RunOutcome.exited c) art = Except.ok b) ↔ art.isSome = true) ∧
    ((∃ b, compileStep (RunOutcome.threwStatus c) art = Except.ok b) ↔ art.isSome = true) ∧
    (∀ b, art = some b → compileStep (RunOutcome.exited c) art = Except.ok b) ∧
    (art = none → compileStep (RunOutcome.exited c) art = Except.error stlMissingMsg) := by
  cases art with
  | none =>
    refine ⟨⟨fun ⟨b, hb⟩ => Except.noConfusion hb, fun h => by cases h⟩,
      ⟨fun ⟨b, hb⟩ => Except.noConfusion hb, fun h => by cases h⟩,
      fun b hb => Option.noConfusion hb, fun _ => rfl⟩
  | some stl =>
    refine ⟨⟨fun _ => rfl, fun _ => ⟨stl, rfl⟩⟩, ⟨fun _ => rfl, fun _ => ⟨stl, rfl⟩⟩,
      fun b hb => ?_, fun h => Option.noConfusion h⟩
    simp only [Option.some_inj] at hb
    rw [hb]
    rfl

/-- Claim C2 witness: an engine run exiting with status 1 that left an
artifact is a success carrying that artifact; a run exiting 0 with no
artifact is the `ArtifactMissing` failure. -/
theorem claim2_witness :
    compileStep (RunOutcome.exited 1) (some [83, 84, 76]) = Except.ok [83, 84, 76] ∧
    compileStep (RunOutcome.exited 0) none = Except.error stlMissingMsg :=
  ⟨(claim2_artifact_presence_is_sole_outcome 1 (some [83, 84, 76])).2.2.1 _ rfl,
    (claim2_artifact_presence_is_sole_outcome 0 none).2.2.2 rfl⟩

/-- Claim C5: a populated dependency cache answers every later resolution
with the cached (possibly incomplete) file set, performing zero fetches
of any kind, and a successful first resolution populates the cache with
exactly the set it returned. -/
theorem claim5_cache_answers_without_fetches (fs r : List (Str × Str)) (net net' : NetEnv)
    (hr : (loadBOSL2 none net).result = Except.ok r) :
    loadBOSL2 (some fs) net' = ⟨Except.ok fs, some fs, 0, []⟩ ∧
    (loadBOSL2 none net).cache = some r ∧
    loadBOSL2 (loadBOSL2 none net).cache net' = ⟨Except.ok r, some r, 0, []⟩ := by
  refine ⟨rfl, loadBOSL2_populates hr, ?_⟩
  rw [loadBOSL2_populates hr]
  rfl

/-- Claim C5 witness: a first resolution over a one-file listing whose
single body fetch fails caches the (incomplete, empty) set, and the second
resolution returns it with zero fetches. -/
theorem claim5_witness :
    (loadBOSL2 none ⟨Except.ok ["a.scad".data], fun _ => none⟩).result = Except.ok [] ∧
    loadBOSL2 (loadBOSL2 none ⟨Except.ok ["a.scad".data], fun _ => none⟩).cache
        ⟨Except.ok ["a.scad".data, "b.scad".data], fun _ => some "body".data⟩ =
      ⟨Except.ok [], some [], 0, []⟩ :=
  ⟨by decide,
    (claim5_cache_answers_without_fetches [] []
      ⟨Except.ok ["a.scad".data], fun _ => none⟩
      ⟨Except.ok ["a.scad".data, "b.scad".data], fun _ => some "body".data⟩
      (by decide)).2.2⟩

/-- Claim C6: a failed fetch of an individual library file only drops that
file from the returned set (the others are kept, in listing order), while
a failed listing fetch aborts the resolution with the listing error, which
a compile request needing the library reports as its fatal error. -/
theorem claim6_file_failure_tolerated_listing_fatal (net : NetEnv) :
    (∀ e, net.listing = Except.error e → (loadBOSL2 none net).result = Except.error e) ∧
    (∀ names, net.listing = Except.ok names →
      (loadBOSL2 none net).result = Except.ok
        (((names.map stripLeadSlash).filter endsWithScad).filterMap
          fun nm => (net.body nm).map fun t => (nm, t))) ∧
    (∀ src e (env : WorkerEnv), env.net = net → env.factory = Except.ok () →
      needsBOSL2 src = true → net.listing = Except.error e →
      (compileModel src none env).1 = Except.error e) := by
  refine ⟨?_, ?_, ?_⟩
  · intro e he
    unfold loadBOSL2
    rw [he]
  · intro names hn
    unfold loadBOSL2
    rw [hn]
    simp only [Except.ok.injEq]
    exact goBatches_fst net _ _ 0
  · intro src e env henv hfac hneeds hlist
    unfold compileModel
    rw [hfac, hneeds]
    simp only [henv]
    have hload : (loadBOSL2 none net).result = Except.error e := by
      unfold loadBOSL2
      rw [hlist]
    unfold loadBOSL2 at hload ⊢
    rw [hlist] at hload ⊢
    rfl

/-- Claim C6 witness: with a two-file listing where only the second body
fetch succeeds, the first file is dropped and the second kept; with a
failed listing, a BOSL2-needing compile request fails with that error. -/
theorem claim6_witness :
    (loadBOSL2 none ⟨Except.ok ["a.scad".data, "b.scad".data],
        fun nm => if nm = "b.scad".data then some "body".data else none⟩).result =
      Except.ok [("b.scad".data, "body".data)] ∧
    (compileModel "include <BOSL2/std.scad>".data none
        ⟨Except.ok (), ⟨Except.error "net down".data, fun _ => none⟩,
          RunOutcome.exited 0, some [1]⟩).1 = Except.error "net down".data := by
  constructor
  · have := (claim6_file_failure_tolerated_listing_fatal
      ⟨Except.ok ["a.scad".data, "b.scad".data],
        fun nm => if nm = "b.scad".data then some "body".data else none⟩).2.1
      ["a.scad".data, "b.scad".data] rfl
    rw [this]
    decide
  · exact (claim6_file_failure_tolerated_listing_fatal
      ⟨Except.error "net down".data, fun _ => none⟩).2.2
      "include <BOSL2/std.scad>".data "net down".data
      ⟨Except.ok (), ⟨Except.error "net down".data, fun _ => none⟩,
        RunOutcome.exited 0, some [1]⟩ rfl rfl (by decide) rfl

/-- Claim C9: no descriptor in the extractor's output has a name beginning
with the reserved `$` sigil, for any input source text. -/
theorem claim9_no_dollar_names (src : Str) (p : Param) (h : p ∈ parseParameters src) :
    p.name.head? ≠ some '$' := by
  obtain ⟨k, l, vm, tv, sect', _, hp, _, hd, _⟩ := parseLoop_mem h
  rw [hp, mkParam_name]
  exact hd

/-- Claim C9 witness: the descriptor extracted from `x = 1;` does not start
with the sigil. -/
theorem claim9_witness : samplePlainParam.name.head? ≠ some '$' :=
  claim9_no_dollar_names "x = 1;".data samplePlainParam (by decide)

/-- Claim C7: every descriptor satisfies exactly one of: an options list
with no range, a min/max range with no options list, or neither — never
both an options list and a range. -/
theorem claim7_options_range_exclusive (src : Str) (p : Param)
    (h : p ∈ parseParameters src) :
    (p.options ≠ none ∧ p.min = none ∧ p.max = none) ∨
    (p.options = none ∧ p.min ≠ none ∧ p.max ≠ none) ∨
    (p.options = none ∧ p.min = none ∧ p.max = none) := by
  obtain ⟨k, l, vm, tv, sect', _, hp, _, _, _⟩ := parseLoop_mem h
  rw [hp]
  unfold mkParam
  split
  · unfold applyComment
    split
    · split
      · exact Or.inr (Or.inl ⟨rfl, fun hc => Option.noConfusion hc,
          fun hc => Option.noConfusion hc⟩)
      · exact Or.inl ⟨fun hc => Option.noConfusion hc, rfl, rfl⟩
    · exact Or.inr (Or.inr ⟨rfl, rfl, rfl⟩)
  · exact Or.inr (Or.inr ⟨rfl, rfl, rfl⟩)

/-- Claim C7 witness: the descriptor of `x = 30; // [10:100]` lands in the
range branch of the trichotomy. -/
theorem claim7_witness :
    (sampleRangeParam.options ≠ none ∧ sampleRangeParam.min = none ∧
      sampleRangeParam.max = none) ∨
    (sampleRangeParam.options = none ∧ sampleRangeParam.min ≠ none ∧
      sampleRangeParam.max ≠ none) ∨
    (sampleRangeParam.options = none ∧ sampleRangeParam.min = none ∧
      sampleRangeParam.max = none) :=
  claim7_options_range_exclusive "x = 30; // [10:100]".data sampleRangeParam (by decide)

/-- Claim C4: a bracketed colon-delimited numeric constraint comment sets
`min` to the first operand, `max` to the last, `step` to the middle one
when present (and to null otherwise), forces the descriptor's type to
number and clears `options`. -/
theorem claim4_range_constraint (src : Str) (p : Param) (inner t1 : Str)
    (t2opt : Option Str) (t3 : Str) (h : p ∈ parseParameters src)
    (hd : dropdownMatchFn p.comment = some inner)
    (hr : rangeMatchFn inner = some (t1, t2opt, t3)) :
    p.min = some (parseFloatJS t1) ∧ p.max = some (parseFloatJS t3) ∧
    p.step = t2opt.map parseFloatJS ∧ p.type = PType.number ∧ p.options = none := by
  obtain ⟨k, l, vm, tv, sect', _, hp, _, _, _⟩ := parseLoop_mem h
  subst hp
  rw [mkParam_comment] at hd
  unfold mkParam
  by_cases hc : jsTrim (vm.comment.getD []) ≠ []
  · rw [if_pos hc]
    unfold applyComment
    simp only [hd, hr]
    refine ⟨?_, ?_, ?_, ?_, ?_⟩ <;> trivial
  · exfalso
    push_neg at hc
    rw [hc] at hd
    exact Option.noConfusion hd

/-- Claim C4 witness: `x = 30; // [10:100]` yields min 10, max 100, null
step, and `r = 19; // [5:0.5:40]` yields min 5, step one half, max 40. -/
theorem claim4_witness :
    (sampleRangeParam.min = some (parseFloatJS "10".data) ∧
     sampleRangeParam.max = some (parseFloatJS "100".data) ∧
     sampleRangeParam.step = (none : Option Str).map parseFloatJS ∧
     sampleRangeParam.type = PType.number ∧ sampleRangeParam.options = none) ∧
    (sampleStepParam.min = some (parseFloatJS "5".data) ∧
     sampleStepParam.max = some (parseFloatJS "40".data) ∧
     sampleStepParam.step = (some "0.5".data).map parseFloatJS ∧
     sampleStepParam.type = PType.number ∧ sampleStepParam.options = none) ∧
    parseFloatJS "10".data = JSNum.fin ⟨10, 1⟩ ∧
    parseFloatJS "0.5".data = JSNum.fin ⟨1, 2⟩ :=
  ⟨claim4_range_constraint "x = 30; // [10:100]".data sampleRangeParam "10:100".data
      "10".data none "100".data (by decide) (by decide) (by decide),
   claim4_range_constraint "r = 19; // [5:0.5:40]".data sampleStepParam "5:0.5:40".data
      "5".data (some "0.5".data) "40".data (by decide) (by decide) (by decide),
   by decide, by decide⟩

/-- Claim C3: an assignment line whose right-hand side is not a literal
(not a boolean, not fully double-quoted, not float-parseable) produces no
descriptor for its line, and the synthesizer reproduces that line
unchanged. -/
theorem claim3_expression_line_untouched (src : Str) (i : Nat) (l : Str) (vm : VarMatch)
    (hline : getAt (splitNL src) i = some l)
    (hvm : varMatchFn (jsTrim l) = some vm)
    (hpv : parseValue (jsTrim vm.value) = none) :
    (∀ p ∈ parseParameters src, p.line ≠ i) ∧
    getAt (buildLoop (splitNL src) (parseParameters src)) i = some l := by
  have hnone : ∀ p ∈ parseParameters src, p.line ≠ i := by
    intro p hp hpi
    obtain ⟨k, l', vm', tv, sect', h1, h2, h3, _, h5⟩ := parseLoop_mem hp
    have hk : p.line = 0 + k := by rw [h2, mkParam_line]
    have hk' : k = i := by omega
    rw [hk'] at h1
    have hll : l = l' := by
      rw [hline] at h1
      exact Option.some_inj.mp h1
    rw [← hll] at h3
    rw [hvm] at h3
    have hvmvm : vm = vm' := Option.some_inj.mp h3
    rw [← hvmvm] at h5
    rw [hpv] at h5
    exact Option.noConfusion h5
  exact ⟨hnone, by rw [buildLoop_getAt_notmem hnone]; exact hline⟩

/-- Claim C3 witness: `x = foo(1);` has an expression right-hand side; the
synthesizer reproduces the line verbatim. -/
theorem claim3_witness :
    getAt (buildLoop (splitNL "x = foo(1);".data) (parseParameters "x = foo(1);".data)) 0 =
      some "x = foo(1);".data :=
  (claim3_expression_line_untouched "x = foo(1);".data 0 "x = foo(1);".data
    ⟨"x".data, "foo(1)".data, none⟩ (by decide) (by decide) (by decide)).2

/-- Claim C10: an incoming worker message whose type is not `compile`
produces no outgoing message of any kind (and leaves the cache alone):
every `postMessage` call site sits inside the compile branch. -/
theorem claim10_non_compile_message_is_silent (msgType scadSource : Str)
    (cache : Option (List (Str × Str))) (env : WorkerEnv)
    (h : msgType ≠ "compile".data) :
    handleMessage msgType scadSource cache env = ([], cache) := by
  unfold handleMessage
  rw [if_neg h]

theorem getSubstitution_cons_no_dollar {m c1 c2 : Str} {c : Char} (hc : c ≠ '$') (s : Str) :
    getSubstitution m c1 c2 (c :: s) = c :: getSubstitution m c1 c2 s := by
  show (if c = '$' then getSubstitutionGo m c1 c2 1 s else c :: getSubstitutionGo m c1 c2 0 s) =
    c :: getSubstitutionGo m c1 c2 0 s
  rw [if_neg hc]

theorem getSubstitution_append_no_dollar {m c1 c2 : Str} :
    ∀ {v : Str}, '$' ∉ v → ∀ s,
      getSubstitution m c1 c2 (v ++ s) = v ++ getSubstitution m c1 c2 s := by
  intro v
  induction v with
  | nil => intro _ s; rfl
  | cons c v' ih =>
    intro hv s
    rw [List.cons_append,
      getSubstitution_cons_no_dollar (fun h => hv (by rw [← h]; exact List.mem_cons_self c v')),
      ih (fun h => hv (List.mem_cons_of_mem c h)) s, List.cons_append]

theorem getSubstitution_d1 (m c1 c2 r : Str) :
    getSubstitution m c1 c2 ('$' :: '1' :: r) = c1 ++ getSubstitution m c1 c2 r := rfl

theorem getSubstitution_d2_nil (m c1 c2 : Str) :
    getSubstitution m c1 c2 ('$' :: '2' :: []) = c2 := by
  show c2 ++ getSubstitutionGo m c1 c2 0 [] = c2
  exact List.append_nil c2

/-- Claim C8 counterexample: the replaced region is not always exactly the
value token with everything else preserved.  First, the synthesizer cuts
at the first `;`, so `x = "a;b";` becomes the corrupted `x = "a;b";b";`.
Second, a `$` sequence in the serialized value is substituted by the
replacement string, so `x = "a$2b";` becomes `x = "a;b";`.  Third, on a
line with a trailing CR the synthesizer regex does not match at all and
the recorded line keeps its stale value token instead of the serialized
one. -/
theorem claim8_counterexample :
    (buildModifiedSource "x = \"a;b\";".data (parseParameters "x = \"a;b\";".data) =
        "x = \"a;b\";b\";".data ∧
      "x = \"a;b\";b\";".data ≠ "x = \"a;b\";".data) ∧
    (buildModifiedSource "x = \"a$2b\";".data (parseParameters "x = \"a$2b\";".data) =
        "x = \"a;b\";".data ∧
      "x = \"a;b\";".data ≠ "x = \"a$2b\";".data) ∧
    ((parseParameters "x = 1.0;\r".data).map serializeValue = ["1".data] ∧
      buildModifiedSource "x = 1.0;\r".data (parseParameters "x = 1.0;\r".data) =
        "x = 1.0;\r".data) := by
  decide

/-- Claim C8 amended: lines without a descriptor are reproduced unchanged.
On each descriptor's recorded line the synthesizer applies its
replacement; when the raw line is free of line terminators the regex
matches and splits the line into prefix (leading whitespace, identifier,
operator), a shortest nonempty `;`-free middle (not always the whole
value token), and the suffix from the first delimiter on, and when the
serialized value contains no `$` the output line is exactly prefix ++
serialized value ++ suffix; a line the regex rejects is kept verbatim. -/
theorem claim8_frame_first_delimiter (src : Str) :
    (∀ i, (∀ p ∈ parseParameters src, p.line ≠ i) →
      getAt (buildLoop (splitNL src) (parseParameters src)) i = getAt (splitNL src) i) ∧
    (∀ p ∈ parseParameters src, ∃ l,
      getAt (splitNL src) p.line = some l ∧
      getAt (buildLoop (splitNL src) (parseParameters src)) p.line =
        some (synthReplaceLine l (serializeValue p)) ∧
      (synthMatchFn l = none → synthReplaceLine l (serializeValue p) = l) ∧
      ((∀ c ∈ l, jsDot c = true) → ∃ pre mid suf w1 w2 w3 w4 tail,
        synthMatchFn l = some (pre, mid, suf) ∧
        l = pre ++ mid ++ suf ∧
        ('$' ∉ serializeValue p →
          synthReplaceLine l (serializeValue p) = pre ++ serializeValue p ++ suf) ∧
        pre = w1 ++ p.name ++ w2 ++ '=' :: w3 ∧
        (∀ c ∈ w1, jsSpace c = true) ∧ (∀ c ∈ w2, jsSpace c = true) ∧
        (∀ c ∈ w3, jsSpace c = true) ∧
        suf = w4 ++ ';' :: tail ∧ (∀ c ∈ w4, jsSpace c = true) ∧
        mid ≠ [] ∧ ';' ∉ mid)) := by
  refine ⟨fun i hni => buildLoop_getAt_notmem hni, fun p hp => ?_⟩
  obtain ⟨k, l, vm, tv, sect', h1, h2, h3, _, h5⟩ := parseLoop_mem hp
  have hpl : p.line = k := by rw [h2, mkParam_line]; omega
  have hl : getAt (splitNL src) p.line = some l := by rw [hpl]; exact h1
  have hbuild := buildLoop_getAt_mem hp parseLoop_pairwise hl
  refine ⟨l, hl, hbuild, ?_, ?_⟩
  · intro hnone
    unfold synthReplaceLine
    simp only [hnone]
  · intro hdot
    obtain ⟨pre, mid, suf, hsm, hdecomp, ⟨w1, w2, w3, hpre, hw1, hw2, hw3⟩,
      ⟨w4, tail, hsuf, hw4⟩, hne, hnosemi, _⟩ := synthMatch_of_varMatch h3 h5 hdot
    refine ⟨pre, mid, suf, w1, w2, w3, w4, tail, hsm, hdecomp, ?_, ?_,
      hw1, hw2, hw3, hsuf, hw4, hne, hnosemi⟩
    · intro hd
      unfold synthReplaceLine
      simp only [hsm]
      rw [getSubstitution_d1, getSubstitution_append_no_dollar hd,
        getSubstitution_d2_nil, List.append_assoc]
    · rw [h2, mkParam_name]
      exact hpre

/-- Claim C8 witness: in a two-line source only the descriptor-bearing
line is rewritten; the second line is reproduced unchanged. -/
theorem claim8_witness :
    getAt (buildLoop (splitNL "x = 30; // [10:100]\nfoo();".data)
        (parseParameters "x = 30; // [10:100]\nfoo();".data)) 1 =
      getAt (splitNL "x = 30; // [10:100]\nfoo();".data) 1 :=
  (claim8_frame_first_delimiter "x = 30; // [10:100]\nfoo();".data).1 1 (by decide)

/-- Claim C10 witness: a `ping`-typed message produces no messages. -/
theorem claim10_witness :
    handleMessage "ping".data "x = 1;".data none
      ⟨Except.ok (), ⟨Except.ok [], fun _ => none⟩, RunOutcome.exited 0, none⟩ = ([], none) :=
  claim10_non_compile_message_is_silent "ping".data "x = 1;".data none
    ⟨Except.ok (), ⟨Except.ok [], fun _ => none⟩, RunOutcome.exited 0, none⟩ (by decide)

end ScadViewer
